import Mathlib

/-!
Verification development for the schema change-management workflow tool
(scripts/compare_schema.py and scripts/utils/workflow/ of the repository).

Strings are modelled as `List Char` (`Str`).  The Python regular-expression
substitutions used by the normalizers are embedded as explicit character
scanners with the same leftmost, non-overlapping match semantics (checked
against the regex engine's behaviour on the relevant pattern shapes).
`str.upper()` is modelled on the basic-latin range (`Char.toUpper`), and the
whitespace class `\s` on its ASCII members, which is the alphabet the tool's
SQL text uses.  Scanners that consume a variable number of characters per
step take a fuel argument; the wrappers pass the input length, which always
suffices because every step consumes at least one character.
-/

abbrev Str := List Char

/-- ASCII members of the Python regex class `\s`. -/
def isWs (c : Char) : Bool :=
  c = ' ' || c = '\t' || c = '\n' || c = '\r' || c = '\x0b' || c = '\x0c'

/-- Single-quote character. -/
def quoteCh : Char := Char.ofNat 39

/-- Double-quote character. -/
def dquoteCh : Char := Char.ofNat 34

/-- Left curly brace. -/
def lbrace : Char := Char.ofNat 123

/-- Right curly brace. -/
def rbrace : Char := Char.ofNat 125

/-- Python `str.upper()` (basic-latin range). -/
def upperList (s : Str) : Str := s.map Char.toUpper

/-- Python `str.strip()`. -/
def stripList (s : Str) : Str :=
  ((s.dropWhile isWs).reverse.dropWhile isWs).reverse

/-- Helper: `dropWhile` never lengthens a list. -/
theorem dropWhile_len_le (p : Char → Bool) (l : Str) :
    (l.dropWhile p).length ≤ l.length := by
  induction l with
  | nil => simp
  | cons a t ih =>
    rw [List.dropWhile_cons]
    split
    · exact Nat.le_succ_of_le ih
    · simp

/--
Scanner for `re.sub(r'--.*$', '', s, flags=re.MULTILINE)` of
`compare_schema.normalize_ddl`: from each `--` to the end of its line the
text is removed.  Mode `true` means the scanner is inside a comment and is
skipping up to the next newline.
-/
def rmC : Bool → Str → Str
  | _, [] => []
  | true, c :: rest => if c = '\n' then c :: rmC false rest else rmC true rest
  | false, c :: rest =>
    match rest with
    | [] => [c]
    | d :: rest2 =>
      if c = '-' ∧ d = '-' then rmC true rest2
      else c :: rmC false (d :: rest2)

/-- Comment removal of `normalize_ddl`. -/
def removeComments (s : Str) : Str := rmC false s

/--
Scanner for `re.sub(r'\s+', ' ', s)`: every maximal whitespace run becomes a
single space.  Mode `true` means the scanner has just emitted the space for
the current run and is dropping the rest of the run.
-/
def clps : Bool → Str → Str
  | _, [] => []
  | true, c :: rest => if isWs c then clps true rest else c :: clps false rest
  | false, c :: rest => if isWs c then ' ' :: clps true rest else c :: clps false rest

/-- Whitespace collapsing of `normalize_ddl` / `normalize_grant`. -/
def collapseWs (s : Str) : Str := clps false s

/-- Does a leading whitespace run lead to a character in `P`? -/
def wsLeadsTo (P : Char → Bool) (l : Str) : Bool :=
  match l.dropWhile isWs with
  | d :: _ => P d
  | [] => false

/--
Scanner for `re.sub(r'\s*(X)\s*', r'\1', s)` with `X` a character class `P`
(used with `[(),;]`, `,` and `=` by `normalize_ddl`): whitespace adjacent to
a `P`-character is removed.  Mode `true` means a `P`-character was just
emitted and its trailing whitespace run is being dropped.
-/
def sqzF (P : Char → Bool) : Nat → Bool → Str → Str
  | 0, _, l => l
  | _ + 1, _, [] => []
  | n + 1, true, c :: rest =>
    if isWs c then sqzF P n true rest
    else if P c then c :: sqzF P n true rest
    else c :: sqzF P n false rest
  | n + 1, false, c :: rest =>
    if P c then c :: sqzF P n true rest
    else if isWs c then
      (if wsLeadsTo P (c :: rest) then sqzF P n false ((c :: rest).dropWhile isWs)
       else c :: sqzF P n false rest)
    else c :: sqzF P n false rest

/-- Whitespace squeezing around a character class, as used by `normalize_ddl`. -/
def squeezeAround (P : Char → Bool) (s : Str) : Str := sqzF P s.length false s

/--
Scanner for `re.sub(r';\s*$', '', s)` of `normalize_ddl`: if everything after
some semicolon is whitespace, that (first such) semicolon and the whitespace
after it are removed; a single semicolon layer only.
-/
def stripTrailingSemi (l : Str) : Str :=
  match l.reverse.dropWhile isWs with
  | c :: rest => if c = ';' then rest.reverse else l
  | [] => l

/-- Is the character one of the two quote kinds of the `["\']` class? -/
def isQuote (c : Char) : Bool := c = quoteCh || c = dquoteCh

/-- Skip a whitespace run (a `\s*` of the placeholder pattern). -/
def skipWs (l : Str) : Str := l.dropWhile isWs

/-- Match an exact character sequence, returning the remainder. -/
def expectChars : Str → Str → Option Str
  | [], l => some l
  | p :: ps, c :: l => if c = p then expectChars ps l else none
  | _ :: _, [] => none

/-- Match one quote character (either kind), returning the remainder. -/
def expectQuote : Str → Option Str
  | c :: l => if isQuote c then some l else none
  | [] => none

/--
Matcher for one occurrence of the leaked-placeholder pattern
`\{\{\s*VAR\s*\(\s*["\']ENV["\']\s*\)\s*\}\}` of `normalize_ddl`, at the
start of `l`, returning the remainder after the match.
-/
def matchVar (l : Str) : Option Str :=
  (expectChars [lbrace, lbrace] l).bind fun r1 =>
  (expectChars ['V', 'A', 'R'] (skipWs r1)).bind fun r2 =>
  (expectChars ['('] (skipWs r2)).bind fun r3 =>
  (expectQuote (skipWs r3)).bind fun r3q =>
  (expectChars ['E', 'N', 'V'] r3q).bind fun r3e =>
  (expectQuote r3e).bind fun r4 =>
  (expectChars [')'] (skipWs r4)).bind fun r5 =>
  expectChars [rbrace, rbrace] (skipWs r5)

/--
Scanner for the placeholder substitution
`re.sub(r'\{\{\s*VAR\s*\(\s*["\']ENV["\']\s*\)\s*\}\}', 'SIT', s)`
of `normalize_ddl`.
-/
def substVarF : Nat → Str → Str
  | 0, l => l
  | _ + 1, [] => []
  | n + 1, c :: rest =>
    match matchVar (c :: rest) with
    | some r => 'S' :: 'I' :: 'T' :: substVarF n r
    | none => c :: substVarF n rest

/-- Placeholder substitution pass of `normalize_ddl`. -/
def substVar (l : Str) : Str := substVarF l.length l

/-- Opening sequence of the `IDENTIFIER(<quote>` pattern. -/
def identOpen (q : Char) : Str :=
  'I' :: 'D' :: 'E' :: 'N' :: 'T' :: 'I' :: 'F' :: 'I' :: 'E' :: 'R' :: '(' :: [q]

/--
Matcher for one occurrence of `IDENTIFIER\(q([^q]+)q\)` (with `q` one fixed
quote kind) at the start of `l`, as used by `normalize_grant`; returns the
wrapped inner text and the remainder after the closing parenthesis.
-/
def matchIdent (q : Char) (l : Str) : Option (Str × Str) :=
  (expectChars (identOpen q) l).bind fun rest =>
  (let inner := rest.takeWhile (fun d => !decide (d = q))
   match rest.dropWhile (fun d => !decide (d = q)) with
   | _ :: c2 :: rest3 =>
     if inner ≠ [] ∧ c2 = ')' then some (inner, rest3) else none
   | _ => none)

/--
Scanner for `re.sub(r"IDENTIFIER\('([^']+)'\)", r'\1', s)` (and the
double-quoted variant) of `normalize_grant`; the replacement is not
rescanned.
-/
def unwrapIdentF (q : Char) : Nat → Str → Str
  | 0, l => l
  | _ + 1, [] => []
  | n + 1, c :: rest =>
    match matchIdent q (c :: rest) with
    | some (inner, rest3) => inner ++ unwrapIdentF q n rest3
    | none => c :: unwrapIdentF q n rest

/-- The `IDENTIFIER(...)` unwrapping pass of `normalize_grant`. -/
def unwrapIdent (q : Char) (l : Str) : Str := unwrapIdentF q l.length l

/--
Scanner for `re.sub(r"'([^']+)'", r'\1', s)` (and the double-quoted variant)
of `normalize_grant`: a quoted run of one or more non-quote characters loses
its surrounding quotes; the replacement is not rescanned.
-/
def stripQF (q : Char) : Nat → Str → Str
  | 0, l => l
  | _ + 1, [] => []
  | n + 1, c :: rest =>
    if c = q then
      (let inner := rest.takeWhile (fun d => !decide (d = q))
       match rest.dropWhile (fun d => !decide (d = q)) with
       | _ :: rest2 =>
         if inner = [] then c :: stripQF q n rest else inner ++ stripQF q n rest2
       | [] => c :: stripQF q n rest)
    else c :: stripQF q n rest

/-- The quote-stripping pass of `normalize_grant`. -/
def stripQ (q : Char) (l : Str) : Str := stripQF q l.length l

/-- Character class `[(),;]` of `normalize_ddl`. -/
def isPunct (c : Char) : Bool := c = '(' || c = ')' || c = ',' || c = ';'

/-- Character class of the `\s*,\s*` pass of `normalize_ddl`. -/
def isCommaCh (c : Char) : Bool := c = ','

/-- Character class of the `\s*(=)\s*` pass of `normalize_ddl`. -/
def isEqCh (c : Char) : Bool := c = '='

/-- Embedding of `compare_schema.normalize_ddl`. -/
def normalize_ddl (s : Str) : Str :=
  if s = [] then []
  else
    stripList (substVar (stripTrailingSemi (squeezeAround isEqCh
      (squeezeAround isCommaCh (squeezeAround isPunct
        (collapseWs (removeComments (stripList (upperList s)))))))))

/-- Embedding of `compare_schema.normalize_grant`. -/
def normalize_grant (s : Str) : Str :=
  stripList (stripQ dquoteCh (stripQ quoteCh (collapseWs
    (unwrapIdent dquoteCh (unwrapIdent quoteCh (stripList (upperList s)))))))

/-- Shorthand for string literals as character lists. -/
def strL (s : String) : Str := s.toList

/-! ## Diff/comparison engine (`scripts/compare_schema.py`) -/

/-- Python `dict.get(key, '')` modelled over an association list. -/
def getD (m : List (Str × Str)) (k : Str) : Str :=
  match m.find? (fun p => decide (p.1 = k)) with
  | some p => p.2
  | none => []

/-- Keys of an association list. -/
def keysOf (m : List (Str × Str)) : List Str := m.map Prod.fst

/-- Lexicographic (code-point) order used by Python `sorted` on strings. -/
def strLt : Str → Str → Bool
  | [], [] => false
  | [], _ :: _ => true
  | _ :: _, [] => false
  | a :: as, b :: bs => if a = b then strLt as bs else decide (a.toNat < b.toNat)

/-- Insertion step of the sort. -/
def insertSorted (x : Str) : List Str → List Str
  | [] => [x]
  | y :: ys => if strLt x y then x :: y :: ys else y :: insertSorted x ys

/-- Insertion sort, standing in for Python `sorted` (distinct keys). -/
def sortStrs : List Str → List Str
  | [] => []
  | x :: xs => insertSorted x (sortStrs xs)

/-- The iteration order `sorted(set(current) | set(proposed))` of `compare_objects`. -/
def allObjectKeys (cur pro : List (Str × Str)) : List Str :=
  sortStrs ((keysOf cur ++ keysOf pro).dedup)

/-- Classification record built by `compare_objects`. -/
structure ObjChanges where
  new : List Str
  modified : List Str
  removed : List Str
  unchanged : List Str
deriving DecidableEq

/-- Normalized form of one side of an object entry, as `compare_objects`
computes it: `normalize_ddl(mapping.get(key, '').strip())`. -/
def sideNorm (m : List (Str × Str)) (k : Str) : Str :=
  normalize_ddl (stripList (getD m k))

/-- Loop body of `compare_objects`: the `if not current_normalized and
proposed_normalized / elif ... / elif ... / else` chain. -/
def classifyStep (cur pro : List (Str × Str)) (ch : ObjChanges) (k : Str) : ObjChanges :=
  let cN := sideNorm cur k
  let pN := sideNorm pro k
  if cN = [] ∧ pN ≠ [] then { ch with new := ch.new ++ [k] }
  else if cN ≠ [] ∧ pN = [] then { ch with removed := ch.removed ++ [k] }
  else if cN ≠ pN then { ch with modified := ch.modified ++ [k] }
  else { ch with unchanged := ch.unchanged ++ [k] }

/-- Embedding of `compare_schema.compare_objects` (report printing omitted). -/
def compare_objects (cur pro : List (Str × Str)) : ObjChanges :=
  (allObjectKeys cur pro).foldl (classifyStep cur pro) ⟨[], [], [], []⟩

/-- Classification record built by `compare_grants`; there is no `modified`
category for grants. -/
structure GrantChanges where
  new : List Str
  removed : List Str
  unchanged : List Str
deriving DecidableEq

/-- Embedding of `compare_schema.compare_grants`: set difference /
intersection over the normalized grant strings (sets modelled as
deduplicated lists). -/
def compare_grants (cur pro : List Str) : GrantChanges :=
  let curKeys := (cur.map normalize_grant).dedup
  let proKeys := (pro.map normalize_grant).dedup
  { new := proKeys.filter fun g => !decide (g ∈ curKeys)
    removed := curKeys.filter fun g => !decide (g ∈ proKeys)
    unchanged := curKeys.filter fun g => decide (g ∈ proKeys) }

/-- Substring test (Python `in` on strings). -/
def containsSub (pat : Str) : Str → Bool
  | [] => pat.isPrefixOf []
  | c :: rest => pat.isPrefixOf (c :: rest) || containsSub pat rest

/-- The wrong-environment markers of `main`'s removed-grant categorization. -/
def envTokens : List Str := [strL "_PROD_", strL "_DEV_", strL "_QA_", strL "_UAT_"]

/-- Is a removed grant an environment-cleanup grant (mentions a different
environment than the target)? -/
def isEnvCleanupGrant (targetEnv : Str) (g : Str) : Bool :=
  envTokens.any fun e =>
    !decide (e = '_' :: targetEnv ++ strL "_") && containsSub e g

/-- Unmanaged object-kind markers of `main`'s removed-grant categorization. -/
def policyTokens : List Str :=
  [strL "AGGREGATION POLICY", strL "ALERT", strL "AUTHENTICATION POLICY",
   strL "CORTEX SEARCH", strL "DATA METRIC FUNCTION", strL "DATASET",
   strL "EVENT TABLE", strL "EXTERNAL TABLE", strL "GIT REPOSITORY",
   strL "ICEBERG TABLE", strL "IMAGE REPOSITORY", strL "MASKING POLICY",
   strL "MODEL", strL "NETWORK RULE", strL "NOTEBOOK", strL "PACKAGES POLICY",
   strL "PASSWORD POLICY", strL "PRIVACY POLICY", strL "PROJECTION POLICY",
   strL "RESOURCE GROUP", strL "ROW ACCESS POLICY", strL "SECRET",
   strL "SERVICE CLASS", strL "SERVICE", strL "SESSION POLICY", strL "SNAPSHOT",
   strL "STREAMLIT", strL "TAG", strL "TEMPORARY TABLE"]

/-- Removed grants categorized as environment cleanup by `main`. -/
def environmentCleanupGrants (targetEnv : Str) (removed : List Str) : List Str :=
  removed.filter (isEnvCleanupGrant targetEnv)

/-- Removed grants categorized as scope cleanup by `main` (the `elif`
branch: not environment cleanup, and mentioning an unmanaged object kind). -/
def scopeCleanupGrants (targetEnv : Str) (removed : List Str) : List Str :=
  removed.filter fun g =>
    !isEnvCleanupGrant targetEnv g && policyTokens.any fun t => containsSub t g

/-- The `meaningful_changes` count of `main`. -/
def meaningfulChanges (targetEnv : Str) (oc : ObjChanges) (gc : GrantChanges) : Nat :=
  (oc.new.length + oc.modified.length + oc.removed.length) + gc.new.length +
    (environmentCleanupGrants targetEnv gc.removed).length

/-- The exit-code computation at the end of `main` (prints omitted). -/
def compareVerdict (targetEnv : Str) (oc : ObjChanges) (gc : GrantChanges) : Nat :=
  if meaningfulChanges targetEnv oc gc = 0 ∧
      (scopeCleanupGrants targetEnv gc.removed).length = 0 then 0
  else if meaningfulChanges targetEnv oc gc > 0 then 2 else 0

/-- The data `main` compares once connection, extraction and file loading
have succeeded. -/
structure CompareInputs where
  current_objects : List (Str × Str)
  proposed_objects : List (Str × Str)
  current_grants : List Str
  proposed_grants : List Str
  target_env : Str

/-- Embedding of `compare_schema.main`: the `try` body on success, and the
`except`-clause exit code `1` when gathering the comparison inputs raised. -/
def compare_main : Except Unit CompareInputs → Nat
  | .error _ => 1
  | .ok i =>
    compareVerdict i.target_env
      (compare_objects i.current_objects i.proposed_objects)
      (compare_grants i.current_grants i.proposed_grants)

/-! ## Templating analyzer (`scripts/utils/workflow/templating_analyzer.py`) -/

/-- Case-insensitive prefix match (basic-latin case folding, mirroring
`re.IGNORECASE` on the text this tool scans). -/
def startsWithCI : Str → Str → Bool
  | [], _ => true
  | _ :: _, [] => false
  | p :: ps, c :: cs => decide (Char.toUpper c = Char.toUpper p) && startsWithCI ps cs

/-- Match `\s+` followed by a continuation pattern `k`. -/
def wsThen (k : Str → Bool) : Str → Bool
  | [] => false
  | c :: rest => isWs c && (k rest || wsThen k rest)

/-- Match `KW\s+MT` at the start of the text. -/
def pat1At (kw mt s : Str) : Bool :=
  startsWithCI kw s && wsThen (startsWithCI mt) (s.drop kw.length)

/-- The `re.search` of `KW\s+MT` anywhere in the text. -/
def search1 (kw mt : Str) : Str → Bool
  | [] => false
  | c :: rest => pat1At kw mt (c :: rest) || search1 kw mt rest

/-- Match `KW1\s+KW2\s+MT` at the start of the text. -/
def pat2At (kw1 kw2 mt s : Str) : Bool :=
  startsWithCI kw1 s &&
    wsThen (fun t => startsWithCI kw2 t && wsThen (startsWithCI mt) (t.drop kw2.length))
      (s.drop kw1.length)

/-- The `re.search` of `KW1\s+KW2\s+MT` anywhere in the text. -/
def search2 (kw1 kw2 mt : Str) : Str → Bool
  | [] => false
  | c :: rest => pat2At kw1 kw2 mt (c :: rest) || search2 kw1 kw2 mt rest

/-- The `from_join_patterns` loop of `_is_safe_to_template`: does any of the
four recognized safe patterns match the context window? -/
def safeContextMatch (mt ctx : Str) : Bool :=
  search1 (strL "FROM") mt ctx || search1 (strL "JOIN") mt ctx ||
  search1 (strL "UPDATE") mt ctx || search2 (strL "DELETE") (strL "FROM") mt ctx

/-- The `table_column_patterns` loop of `_is_safe_to_template`. -/
def tableContextMatch (mt ctx : Str) : Bool :=
  search2 (strL "CREATE") (strL "TABLE") mt ctx ||
  search2 (strL "CREATE") (strL "VIEW") mt ctx ||
  search2 (strL "ALTER") (strL "TABLE") mt ctx ||
  search2 (strL "DROP") (strL "TABLE") mt ctx

/-- Non-overlapping substring count with nonempty pattern (fuelled). -/
def countSubF (pat : Str) : Nat → Str → Nat
  | 0, _ => 0
  | _ + 1, [] => 0
  | n + 1, c :: rest =>
    if pat.isPrefixOf (c :: rest) then 1 + countSubF pat n ((c :: rest).drop pat.length)
    else countSubF pat n rest

/-- Python `str.count`: non-overlapping substring occurrences. -/
def countSub (pat s : Str) : Nat :=
  if pat = [] then s.length + 1 else countSubF pat s.length s

/-- Embedding of `TemplatingAnalyzer._is_in_string_literal` (quote parity
before the position; the after-counts are computed but unused, as in the
source). -/
def is_in_string_literal (content : Str) (s e : Nat) : Bool :=
  let before := content.take s
  let after := content.drop e
  let singleBefore := countSub [quoteCh] before - countSub ['\\', quoteCh] before
  let doubleBefore := countSub [dquoteCh] before - countSub ['\\', dquoteCh] before
  let _singleAfter := countSub [quoteCh] after - countSub ['\\', quoteCh] after
  let _doubleAfter := countSub [dquoteCh] after - countSub ['\\', dquoteCh] after
  decide (singleBefore % 2 = 1) || decide (doubleBefore % 2 = 1)

/-- Embedding of `TemplatingAnalyzer._is_safe_to_template`. -/
def is_safe_to_template (mt ctx fullContent : Str) (s e : Nat) : Bool × Str :=
  if safeContextMatch mt ctx then
    (true, strL "Database reference in FROM/JOIN clause - safe to template")
  else if tableContextMatch mt ctx then
    (false, strL "Database reference in table/view name - do not template")
  else if is_in_string_literal fullContent s e then
    (false, strL "Database reference in string literal - do not template")
  else
    (false, strL "Unclear context - review manually")

/-! ## Workflow state machine and steps (`scripts/utils/workflow/`)

The per-schema temp directory is modelled by `TempDir`.  Reading
`workflow_state.json` is modelled by `StateRead` (the file parses and holds a
`current_step`, parses without one, or fails to parse), `decisions.json` by
`DecRead`.  The markdown analysis report is abstracted to the suggestion list
it carries.  Timestamps and the opaque `details` payloads written next to
`current_step` are not modelled: `get_current_state` reads only
`current_step`.  Operator keystrokes are abstracted to the resolved verdict
the input loop of `_review_single_suggestion` returns per suggestion. -/

/-- Result of `WorkflowStateManager.get_current_state`'s read of the state
file when it exists. -/
inductive StateRead where
  | valid (currentStep : String)
  | noField
  | corrupt
deriving DecidableEq

/-- Resolved outcome of the interactive choice loop for one suggestion. -/
inductive Verdict where
  | accept
  | reject
  | quit
deriving DecidableEq

/-- A templating suggestion as the reviewer presents it. -/
structure Suggestion where
  original : Str
  suggested : Str
  context : Str
  reason : Str
  is_safe : Bool
  risk_level : Str
deriving DecidableEq

/-- A recorded review decision (`decision_record` of the reviewer; timestamp
and free-text notes omitted). -/
structure Decision where
  suggestion_num : Nat
  original : Str
  suggested : Str
  context : Str
  reason : Str
  is_safe : Bool
  risk_level : Str
  decision : Verdict
deriving DecidableEq

/-- Result of reading `decisions.json` when it exists. -/
inductive DecRead where
  | parsed (ds : List Decision)
  | corrupt
deriving DecidableEq

/-- A file: name and content. -/
abbrev SqlFile := Str × Str

/-- The per-schema temp directory (`schemas/<name>/temp`).  `none` for an
`Option` field means the file or directory does not exist. -/
structure TempDir where
  stateFile : Option StateRead
  decisionsFile : Option DecRead
  rawDir : Option (List SqlFile)
  analysisFile : Option (List Suggestion)
  suggestedDir : Bool
  finalDir : Option (List SqlFile)
deriving DecidableEq

/-- Embedding of `WorkflowStateManager.get_current_state`. -/
def getCurrentState (fs : TempDir) : String :=
  match fs.stateFile with
  | none => "NOT_STARTED"
  | some (.valid s) => s
  | some .noField => "UNKNOWN"
  | some .corrupt => "UNKNOWN"

/-- Embedding of `WorkflowStateManager.validate_state_transition`. -/
def validate_state_transition (fs : TempDir) (expected : String) : Bool :=
  decide (getCurrentState fs = expected)

/-- Does a file name match the glob `*.sql`? -/
def isSqlName (f : SqlFile) : Bool := (strL ".sql").isSuffixOf f.1

/-- Embedding of `TemplatingAnalyzer.analyze_schema_files` as invoked lazily
by the reviewer (with `db_base=None`, so no suggestions are generated): it
raises when `raw/` is missing, otherwise writes the analysis report and
creates the `suggested/` directory. -/
def runAnalyzer (fs : TempDir) : Option TempDir :=
  match fs.rawDir with
  | none => none
  | some _ => some { fs with analysisFile := some [], suggestedDir := true }

/-- Embedding of `InteractiveReviewer._load_suggestions`: nothing without the
`suggested/` directory, else the suggestions parsed from the analysis
report. -/
def loadSuggestions (fs : TempDir) : List Suggestion :=
  if fs.suggestedDir then
    match fs.analysisFile with
    | some sugs => sugs
    | none => []
  else []

/-- The decision record built by `_review_single_suggestion`. -/
def mkDecision (i : Nat) (s : Suggestion) (v : Verdict) : Decision :=
  { suggestion_num := i, original := s.original, suggested := s.suggested,
    context := s.context, reason := s.reason, is_safe := s.is_safe,
    risk_level := s.risk_level, decision := v }

/-- The interactive loop of `start_review`: one decision per suggestion, in
order, aborting with `none` at the first `quit` (nothing accumulated so far
is handed back). -/
def reviewLoop (op : Nat → Verdict) : List Suggestion → Nat → List Decision →
    Option (List Decision)
  | [], _, acc => some acc
  | s :: rest, i, acc =>
    let v := op i
    if v = .quit then none
    else reviewLoop op rest (i + 1) (acc ++ [mkDecision i s v])

/-- Embedding of `InteractiveReviewer._complete_review`: persist the decision
list and advance the state to `REVIEW_COMPLETE`. -/
def completeReview (fs : TempDir) (ds : List Decision) : TempDir :=
  { fs with decisionsFile := some (.parsed ds),
            stateFile := some (.valid "REVIEW_COMPLETE") }

/-- Embedding of `InteractiveReviewer.start_review`.  `op` gives the
operator's resolved choice for each suggestion number; the result is `none`
when the underlying code would raise (analysis invoked with `raw/`
missing), otherwise `some (returned-bool, resulting directory)`. -/
def start_review (fs : TempDir) (op : Nat → Verdict) : Option (Bool × TempDir) :=
  if !validate_state_transition fs "EXTRACTION_COMPLETE" then some (false, fs)
  else
    match (match fs.analysisFile with
           | none => runAnalyzer fs
           | some _ => some fs) with
    | none => none
    | some fs1 =>
      match fs1.rawDir with
      | none => some (false, fs1)
      | some raws =>
        if raws.filter isSqlName = [] then some (false, fs1)
        else
          match fs1.analysisFile with
          | none => some (false, fs1)
          | some _ =>
            let sugs := loadSuggestions fs1
            if sugs = [] then some (true, completeReview fs1 [])
            else
              match reviewLoop op sugs 1 [] with
              | none => some (false, fs1)
              | some ds => some (true, completeReview fs1 ds)

/-- Python `str.replace` with empty needle: the replacement lands in every
gap. -/
def replaceEmpty (rep : Str) : Str → Str
  | [] => rep
  | c :: rest => rep ++ c :: replaceEmpty rep rest

/-- Python `str.replace` with nonempty needle (fuelled scanner). -/
def replaceAllF (pat rep : Str) : Nat → Str → Str
  | 0, l => l
  | _ + 1, [] => []
  | n + 1, c :: rest =>
    if pat.isPrefixOf (c :: rest) then rep ++ replaceAllF pat rep n ((c :: rest).drop pat.length)
    else c :: replaceAllF pat rep n rest

/-- Python `str.replace`: replace every non-overlapping occurrence. -/
def replaceAll (pat rep s : Str) : Str :=
  if pat = [] then replaceEmpty rep s else replaceAllF pat rep s.length s

/-- Embedding of `FinalVersionGenerator._load_decisions` (missing or
unparseable file yields `[]`). -/
def loadDecisions (fs : TempDir) : List Decision :=
  match fs.decisionsFile with
  | none => []
  | some (.parsed ds) => ds
  | some .corrupt => []

/-- The inner decision-application loop of
`FinalVersionGenerator._generate_final_with_decisions` for one file: every
`accept` decision is applied as a literal substring replacement, and
recorded as applied when the suggested text occurs in the result; `reject`
decisions change nothing. -/
def applyFileDecisions (ds : List Decision) (content : Str) : Str × List Decision :=
  ds.foldl
    (fun acc d =>
      if d.decision = .accept then
        (let c2 := replaceAll d.original d.suggested acc.1
         (c2, if countSub d.suggested c2 > 0 then acc.2 ++ [d] else acc.2))
      else acc)
    (content, [])

/-- Header of `_generate_final_without_decisions` (timestamp passed in;
prose modelled without emoji). -/
def noDecisionsHeader (schemaName now : Str) : Str :=
  strL "-- FINAL VERSION: " ++ schemaName ++ strL " Schema\n" ++
  strL "-- Generated at: " ++ now ++ strL "\n" ++
  strL "-- Note: No templating decisions were made - using raw extraction\n" ++
  strL "-- This version may contain environment-specific references\n\n"

/-- One applied-change block of `_generate_final_header`. -/
def describeChange (i : Nat) (d : Decision) : Str :=
  strL "-- " ++ strL (toString i) ++ strL ". " ++ d.original ++ strL " -> " ++
    d.suggested ++ strL "\n" ++
  strL "--    Context: " ++ d.context ++ strL "\n" ++
  strL "--    Reason: " ++ d.reason ++ strL "\n"

/-- The enumerated applied-change blocks of `_generate_final_header`. -/
def describeChanges : Nat → List Decision → Str
  | _, [] => []
  | i, d :: rest => describeChange i d ++ describeChanges (i + 1) rest

/-- Embedding of `FinalVersionGenerator._generate_final_header`. -/
def mkFinalHeader (schemaName fileName now : Str) (applied : List Decision) : Str :=
  strL "-- FINAL VERSION: " ++ schemaName ++ strL " Schema\n" ++
  strL "-- File: " ++ fileName ++ strL "\n" ++
  strL "-- Generated at: " ++ now ++ strL "\n" ++
  strL "-- Based on: " ++ strL (toString applied.length) ++ strL " templating decisions\n\n" ++
  (if applied = [] then strL "-- No templating changes applied - using raw extraction\n\n"
   else strL "-- APPLIED TEMPLATING CHANGES:\n" ++ describeChanges 1 applied ++ strL "\n") ++
  strL "-- ==========================================\n" ++
  strL "-- SCHEMA CONTENT BELOW\n" ++
  strL "-- ==========================================\n\n"

/-- Embedding of `FinalVersionGenerator.generate_final_version` (`now` is
the generation timestamp).  Mirrors, in order: the state guard, the
required-files check (`raw` directory and `decisions.json` existence), the
no-decisions path, and the with-decisions path; both generating paths write
the final files and advance the state to `FINAL_GENERATED`. -/
def generate_final_version (fs : TempDir) (schemaName now : Str) : Bool × TempDir :=
  if !validate_state_transition fs "REVIEW_COMPLETE" then (false, fs)
  else if fs.rawDir.isNone || fs.decisionsFile.isNone then (false, fs)
  else
    let raws := (fs.rawDir.getD []).filter isSqlName
    let ds := loadDecisions fs
    if ds = [] then
      (true, { fs with
                finalDir := some (raws.map fun f =>
                  (f.1, noDecisionsHeader schemaName now ++ f.2)),
                stateFile := some (.valid "FINAL_GENERATED") })
    else
      (true, { fs with
                finalDir := some (raws.map fun f =>
                  (f.1, mkFinalHeader schemaName f.1 now (applyFileDecisions ds f.2).2 ++
                    (applyFileDecisions ds f.2).1)),
                stateFile := some (.valid "FINAL_GENERATED") })

/-- Copy one file into the main schema directory, overwriting a file of the
same name. -/
def putFile (m : List SqlFile) (f : SqlFile) : List SqlFile :=
  if m.any (fun g => decide (g.1 = f.1)) then
    m.map fun g => if g.1 = f.1 then f else g
  else m ++ [f]

/-- Embedding of `CommitManager.commit_schema`: state guard, final-directory
and final-files checks, dry-run short circuit, then the copy into the main
schema directory and the advance to `COMMITTED`. -/
def commit_schema (fs : TempDir) (mainDir : List SqlFile) (dryRun : Bool) :
    Bool × TempDir × List SqlFile :=
  if !validate_state_transition fs "FINAL_GENERATED" then (false, fs, mainDir)
  else
    match fs.finalDir with
    | none => (false, fs, mainDir)
    | some fin =>
      let finalFiles := fin.filter isSqlName
      if finalFiles = [] then (false, fs, mainDir)
      else if dryRun then (true, fs, mainDir)
      else (true, { fs with stateFile := some (.valid "COMMITTED") },
            finalFiles.foldl putFile mainDir)

/-- One schema's result record as returned by `extract_schemas` (only the
fields `extract_safe` consumes: the counts and the two files to move, when
they exist). -/
structure SchemaResult where
  object_count : Nat
  grant_count : Nat
  ddlFile : Option SqlFile
  grantFile : Option SqlFile
deriving DecidableEq

/-- The temp directory right after `extract_safe`'s auto-clean: `rmtree`,
fresh `raw/ analysis/ suggested/ final/` structure, and `reset_workflow`
(which writes a `NOT_STARTED` state file). -/
def freshTemp : TempDir :=
  { stateFile := some (.valid "NOT_STARTED"), decisionsFile := none,
    rawDir := some [], analysisFile := none, suggestedDir := true,
    finalDir := some [] }

/-- The file moves of `extract_safe`: each result's DDL and grants file, when
present, lands in `raw/`. -/
def collectExtractedFiles (results : List SchemaResult) : List SqlFile :=
  results.foldl (fun acc r => acc ++ r.ddlFile.toList ++ r.grantFile.toList) []

/-- The `try` body of `extract_safe` after the auto-clean, with the
`except`-clause cleanup (`rmtree` of the temp directory, hence `none`) on
the no-results and empty-extraction failures. -/
def extractInto (t : TempDir) (results : List SchemaResult) : Bool × Option TempDir :=
  match results with
  | [] => (false, none)
  | r0 :: _ =>
    if r0.object_count = 0 ∧ r0.grant_count = 0 then (false, none)
    else
      (true, some { t with rawDir := some (collectExtractedFiles results),
                           stateFile := some (.valid "EXTRACTION_COMPLETE") })

/-- Embedding of `SafeSchemaExtractor.extract_safe`.  `fs` is the temp
directory before the call (`none` if absent); the auto-clean discards it
unconditionally, so the behaviour depends only on the extraction results. -/
def extract_safe (fs : Option TempDir) (results : List SchemaResult) :
    Bool × Option TempDir :=
  extractInto freshTemp results

/-! ## Helper lemmas about the gated operations -/

/-- The review guard: a state other than `EXTRACTION_COMPLETE` fails before
anything is touched. -/
theorem review_wrong_state {fs : TempDir} {op : Nat → Verdict}
    (h : getCurrentState fs ≠ "EXTRACTION_COMPLETE") :
    start_review fs op = some (false, fs) := by
  unfold start_review validate_state_transition
  simp [h]

/-- The generator guard: a state other than `REVIEW_COMPLETE` fails before
anything is touched. -/
theorem generate_wrong_state {fs : TempDir} {schemaName now : Str}
    (h : getCurrentState fs ≠ "REVIEW_COMPLETE") :
    generate_final_version fs schemaName now = (false, fs) := by
  unfold generate_final_version validate_state_transition
  simp [h]

/-- The commit guard: a state other than `FINAL_GENERATED` fails before
anything is touched. -/
theorem commit_wrong_state {fs : TempDir} {mainDir : List SqlFile} {dryRun : Bool}
    (h : getCurrentState fs ≠ "FINAL_GENERATED") :
    commit_schema fs mainDir dryRun = (false, fs, mainDir) := by
  unfold commit_schema validate_state_transition
  simp [h]

/-! ## Claims C1, C2, C3, C10 -/

/--
Claim C1: each gated workflow operation — review (precondition
`EXTRACTION_COMPLETE`), generate (precondition `REVIEW_COMPLETE`) and commit
(precondition `FINAL_GENERATED`) — returns failure on a state mismatch and
leaves the temp directory (state file, decisions file, raw, analysis, final
artifacts) and the main schema directory exactly as they were; in
particular, review invoked in state `NOT_STARTED` creates no decisions
file.
-/
theorem claim1_gated_ops_fail_without_mutation
    (fs : TempDir) (op : Nat → Verdict) (schemaName now : Str)
    (mainDir : List SqlFile) (dryRun : Bool) :
    (getCurrentState fs ≠ "EXTRACTION_COMPLETE" →
      start_review fs op = some (false, fs)) ∧
    (getCurrentState fs ≠ "REVIEW_COMPLETE" →
      generate_final_version fs schemaName now = (false, fs)) ∧
    (getCurrentState fs ≠ "FINAL_GENERATED" →
      commit_schema fs mainDir dryRun = (false, fs, mainDir)) ∧
    (getCurrentState fs = "NOT_STARTED" → fs.decisionsFile = none →
      (start_review fs op).map (fun r => r.2.decisionsFile) = some none) := by
  refine ⟨fun h => review_wrong_state h, fun h => generate_wrong_state h,
    fun h => commit_wrong_state h, fun h hd => ?_⟩
  have hne : getCurrentState fs ≠ "EXTRACTION_COMPLETE" := by rw [h]; decide
  rw [review_wrong_state hne]
  simp [hd]

/-- Witness for C1 at a concrete directory in state `NOT_STARTED`. -/
theorem claim1_witness :
    start_review ⟨some (.valid "NOT_STARTED"), none, none, none, false, none⟩
      (fun _ => .accept) =
      some (false, ⟨some (.valid "NOT_STARTED"), none, none, none, false, none⟩) ∧
    generate_final_version ⟨some (.valid "NOT_STARTED"), none, none, none, false, none⟩
      (strL "S") (strL "T") =
      (false, ⟨some (.valid "NOT_STARTED"), none, none, none, false, none⟩) ∧
    commit_schema ⟨some (.valid "NOT_STARTED"), none, none, none, false, none⟩ [] false =
      (false, ⟨some (.valid "NOT_STARTED"), none, none, none, false, none⟩, []) := by
  obtain ⟨h1, h2, h3, -⟩ := claim1_gated_ops_fail_without_mutation
    ⟨some (.valid "NOT_STARTED"), none, none, none, false, none⟩
    (fun _ => .accept) (strL "S") (strL "T") [] false
  exact ⟨h1 (by decide), h2 (by decide), h3 (by decide)⟩

/--
Claim C2: `extract_safe` may be invoked with the temp directory in any prior
condition (its behaviour is independent of it); it equals the extraction run
from the freshly reset directory, whose persisted state is `NOT_STARTED`;
and on success the persisted state is `EXTRACTION_COMPLETE`.
-/
theorem claim2_extract_reset_semantics
    (fs fs2 : Option TempDir) (results : List SchemaResult) :
    extract_safe fs results = extract_safe fs2 results ∧
    extract_safe fs results = extractInto freshTemp results ∧
    getCurrentState freshTemp = "NOT_STARTED" ∧
    ((extract_safe fs results).1 = true →
      ∃ t, (extract_safe fs results).2 = some t ∧
        getCurrentState t = "EXTRACTION_COMPLETE") := by
  refine ⟨rfl, rfl, rfl, fun h => ?_⟩
  unfold extract_safe extractInto at *
  match results with
  | [] => simp at h
  | r0 :: rs =>
    by_cases hc : r0.object_count = 0 ∧ r0.grant_count = 0
    · simp [hc] at h
    · simp only [hc, if_false]
      exact ⟨_, rfl, rfl⟩

/-- Witness for C2 at a concrete successful extraction run. -/
theorem claim2_witness :
    ∃ t, (extract_safe none [⟨2, 1, some (strL "a.sql", strL "X"), none⟩]).2 = some t ∧
      getCurrentState t = "EXTRACTION_COMPLETE" :=
  (claim2_extract_reset_semantics none (some freshTemp)
    [⟨2, 1, some (strL "a.sql", strL "X"), none⟩]).2.2.2 (by decide)

/--
Claim C3: an extraction run yielding zero objects and zero grants (including
a run with no results at all) fails, and the temp directory — with any
partially created files and the workflow state file inside it — does not
exist afterwards.
-/
theorem claim3_empty_extraction_rolls_back
    (fs : Option TempDir) (results : List SchemaResult)
    (h : ∀ r ∈ results, r.object_count = 0 ∧ r.grant_count = 0) :
    extract_safe fs results = (false, none) := by
  unfold extract_safe extractInto
  match results with
  | [] => rfl
  | r0 :: rs => simp [h r0 (by simp)]

/-- Witness for C3 at a concrete empty extraction. -/
theorem claim3_witness :
    extract_safe (some freshTemp) [⟨0, 0, none, none⟩] = (false, none) :=
  claim3_empty_extraction_rolls_back (some freshTemp) [⟨0, 0, none, none⟩]
    (by intro r hr; simp at hr; simp [hr])

/--
Claim C10: reading the persisted workflow state is a total function; a
missing state file reads as `NOT_STARTED`, an unparseable state file or one
without a `current_step` field reads as the sentinel `UNKNOWN`, which equals
none of the three gated preconditions, so with such a file review, generate
and commit all fail their state validation without mutating anything, while
`extract_safe` behaves exactly as from any other prior condition.
-/
theorem claim10_state_read_total_unknown_gates
    (fs : TempDir) (op : Nat → Verdict) (schemaName now : Str)
    (mainDir : List SqlFile) (dryRun : Bool) (results : List SchemaResult)
    (other : Option TempDir) :
    (fs.stateFile = none → getCurrentState fs = "NOT_STARTED") ∧
    (fs.stateFile = some .corrupt → getCurrentState fs = "UNKNOWN") ∧
    (fs.stateFile = some .noField → getCurrentState fs = "UNKNOWN") ∧
    (getCurrentState fs = "UNKNOWN" →
      start_review fs op = some (false, fs) ∧
      generate_final_version fs schemaName now = (false, fs) ∧
      commit_schema fs mainDir dryRun = (false, fs, mainDir)) ∧
    extract_safe (some fs) results = extract_safe other results := by
  refine ⟨fun h => by simp [getCurrentState, h], fun h => by simp [getCurrentState, h],
    fun h => by simp [getCurrentState, h], fun h => ?_, rfl⟩
  refine ⟨review_wrong_state ?_, generate_wrong_state ?_, commit_wrong_state ?_⟩ <;>
    rw [h] <;> decide

/-- Witness for C10 at a concrete corrupt state file. -/
theorem claim10_witness :
    start_review ⟨some .corrupt, none, none, none, false, none⟩ (fun _ => .accept) =
      some (false, ⟨some .corrupt, none, none, none, false, none⟩) ∧
    generate_final_version ⟨some .corrupt, none, none, none, false, none⟩
      (strL "S") (strL "T") = (false, ⟨some .corrupt, none, none, none, false, none⟩) ∧
    commit_schema ⟨some .corrupt, none, none, none, false, none⟩ [] false =
      (false, ⟨some .corrupt, none, none, none, false, none⟩, []) := by
  obtain ⟨-, -, -, h4, -⟩ := claim10_state_read_total_unknown_gates
    ⟨some .corrupt, none, none, none, false, none⟩ (fun _ => .accept)
    (strL "S") (strL "T") [] false [] none
  exact h4 (by decide)

/-! ## Claim C5 -/

/--
Claim C5: the templating safety classifier returns SAFE exactly when one of
the four recognized safe patterns (the candidate immediately after `FROM`,
`JOIN`, `UPDATE`, or `DELETE FROM`) matches the context window; in every
other case — the table/view-name patterns, the string-literal check, and the
unclear-context fallback — it returns UNSAFE, so it never returns SAFE by
default.
-/
theorem claim5_conservative_templating (mt ctx fullContent : Str) (s e : Nat) :
    (is_safe_to_template mt ctx fullContent s e).1 = true ↔
      safeContextMatch mt ctx = true := by
  unfold is_safe_to_template
  split
  · simp_all
  · split
    · simp_all
    · split <;> simp_all

/-! ## Claim C8 (corrected) -/

/-- A safe suggestion used by the concrete review scenarios. -/
def revSuggestion1 : Suggestion :=
  ⟨strL "PLATFORM_SIT", strL "DBBASE_ENV", strL "FROM PLATFORM_SIT.T",
   strL "in FROM clause", true, strL "LOW"⟩

/-- An unsafe suggestion used by the concrete review scenarios. -/
def revSuggestion2 : Suggestion :=
  ⟨strL "PLATFORM_QA", strL "DBBASE_ENV", strL "CREATE TABLE PLATFORM_QA.T",
   strL "table name", false, strL "MEDIUM"⟩

/-- A temp directory ready for review: extraction done, analysis present
with two suggestions, no decisions file yet. -/
def revFs : TempDir :=
  { stateFile := some (.valid "EXTRACTION_COMPLETE"), decisionsFile := none,
    rawDir := some [(strL "a.sql", strL "SELECT 1")],
    analysisFile := some [revSuggestion1, revSuggestion2],
    suggestedDir := true, finalDir := some [] }

/-- An operator who accepts the first suggestion and quits at the second. -/
def revOp : Nat → Verdict := fun i => if i = 1 then .accept else .quit

/--
Counterexample to claim C8 as stated: in a session over two suggestions the
operator accepts the first and answers quit at the second; the review ends
reporting failure with the directory unchanged, so the decisions file still
does not exist — the accept decision already made earlier in that session
is discarded, contradicting the claim that only the in-progress suggestion
is lost.
-/
theorem claim8_counterexample :
    revOp 1 = Verdict.accept ∧ revOp 2 = Verdict.quit ∧
    start_review revFs revOp = some (false, revFs) ∧
    revFs.decisionsFile = none := by decide

/-- The review loop aborts with `none` as soon as any suggestion in range is
answered with quit. -/
theorem reviewLoop_quits (op : Nat → Verdict) :
    ∀ (sugs : List Suggestion) (i : Nat) (acc : List Decision),
      (∃ j, i ≤ j ∧ j < i + sugs.length ∧ op j = .quit) →
      reviewLoop op sugs i acc = none := by
  intro sugs
  induction sugs with
  | nil => intro i acc ⟨j, h1, h2, _⟩; simp at h2; omega
  | cons s rest ih =>
    intro i acc ⟨j, h1, h2, h3⟩
    unfold reviewLoop
    by_cases hq : op i = Verdict.quit
    · simp [hq]
    · have hj : i ≠ j := fun he => hq (he ▸ h3)
      simp only [hq, if_false]
      exact ih (i + 1) _ ⟨j, by omega, by simp at h2; omega, h3⟩

/--
Claim C8 as amended: when the operator answers quit at any suggestion of the
session, the review returns failure and the temp directory is left exactly
as it was — the persisted state remains `EXTRACTION_COMPLETE` and the
persisted decisions file is untouched; in particular no decision made
earlier in that session is persisted: the whole session's decisions,
not only the in-progress one, are discarded.
-/
theorem claim8_amended (fs : TempDir) (op : Nat → Verdict) (sugs : List Suggestion)
    (h1 : getCurrentState fs = "EXTRACTION_COMPLETE")
    (h2 : fs.analysisFile = some sugs)
    (h3 : fs.suggestedDir = true)
    (h4 : ∃ raws, fs.rawDir = some raws ∧ raws.filter isSqlName ≠ [])
    (h5 : ∃ i, 1 ≤ i ∧ i ≤ sugs.length ∧ op i = .quit) :
    start_review fs op = some (false, fs) ∧
    getCurrentState fs = "EXTRACTION_COMPLETE" ∧
    (start_review fs op).map (fun r => r.2.decisionsFile) = some fs.decisionsFile := by
  obtain ⟨raws, hra, hne⟩ := h4
  obtain ⟨i, hi1, hi2, hiq⟩ := h5
  have hsugs : loadSuggestions fs = sugs := by
    unfold loadSuggestions; rw [h3, h2]; simp
  have hnil : sugs ≠ [] := by
    intro he; rw [he] at hi2; simp at hi2; omega
  have hloop : reviewLoop op sugs 1 [] = none :=
    reviewLoop_quits op sugs 1 [] ⟨i, hi1, by omega, hiq⟩
  have hmain : start_review fs op = some (false, fs) := by
    unfold start_review validate_state_transition
    simp [h1, h2, hra, hne, hsugs, hnil, hloop]
  exact ⟨hmain, h1, by rw [hmain]; rfl⟩

/-- Witness for the amended C8 at the concrete quit session. -/
theorem claim8_witness :
    start_review revFs revOp = some (false, revFs) ∧
    getCurrentState revFs = "EXTRACTION_COMPLETE" ∧
    (start_review revFs revOp).map (fun r => r.2.decisionsFile) =
      some revFs.decisionsFile :=
  claim8_amended revFs revOp [revSuggestion1, revSuggestion2] (by decide) rfl rfl
    ⟨[(strL "a.sql", strL "SELECT 1")], rfl, by decide⟩
    ⟨2, by omega, by decide, by decide⟩

/-! ## Claim C9 -/

/-- Projection of the per-file decision application: the resulting content
is the fold of the accepted literal replacements over the decisions, in
order. -/
theorem applyFileDecisions_fst (ds : List Decision) (content : Str) :
    (applyFileDecisions ds content).1 =
      ds.foldl (fun c d =>
        if d.decision = Verdict.accept then replaceAll d.original d.suggested c else c)
        content := by
  suffices h : ∀ (acc2 : List Decision) (c : Str),
      (ds.foldl (fun acc d =>
        if d.decision = Verdict.accept then
          (let c2 := replaceAll d.original d.suggested acc.1
           (c2, if countSub d.suggested c2 > 0 then acc.2 ++ [d] else acc.2))
        else acc) (c, acc2)).1 =
      ds.foldl (fun c d =>
        if d.decision = Verdict.accept then replaceAll d.original d.suggested c else c) c by
    exact h [] content
  induction ds with
  | nil => intro acc2 c; rfl
  | cons d rest ih =>
    intro acc2 c
    simp only [List.foldl_cons]
    by_cases hd : d.decision = Verdict.accept
    · simp only [hd, if_true]
      exact ih _ _
    · simp only [hd, if_false]
      exact ih _ _

/--
Claim C9: when the generator's precondition holds (state `REVIEW_COMPLETE`,
raw directory present, decisions file present with a nonempty decision
list), it succeeds, advances the persisted state to `FINAL_GENERATED`, and
writes one final file per raw `*.sql` file whose content is a provenance
header followed by the raw content with every `accept` decision applied as
a literal substring replacement — the same decision list applied to every
file, not only the file a suggestion originated from — while `reject`
decisions change nothing.
-/
theorem claim9_generator_applies_accepts
    (fs : TempDir) (schemaName now : Str) (ds : List Decision) (raws : List SqlFile)
    (h1 : getCurrentState fs = "REVIEW_COMPLETE")
    (h2 : fs.decisionsFile = some (.parsed ds))
    (h3 : ds ≠ [])
    (h4 : fs.rawDir = some raws) :
    (generate_final_version fs schemaName now).1 = true ∧
    getCurrentState (generate_final_version fs schemaName now).2 = "FINAL_GENERATED" ∧
    ∃ fin, (generate_final_version fs schemaName now).2.finalDir = some fin ∧
      List.Forall₂ (fun (f g : SqlFile) =>
          g.1 = f.1 ∧
          ∃ hdr, g.2 = hdr ++ ds.foldl (fun c d =>
            if d.decision = Verdict.accept then
              replaceAll d.original d.suggested c
            else c) f.2)
        (raws.filter isSqlName) fin := by
  have hds : loadDecisions fs = ds := by unfold loadDecisions; rw [h2]
  have hgen : generate_final_version fs schemaName now =
      (true, { fs with
        finalDir := some ((raws.filter isSqlName).map fun f =>
          (f.1, mkFinalHeader schemaName f.1 now (applyFileDecisions ds f.2).2 ++
            (applyFileDecisions ds f.2).1)),
        stateFile := some (.valid "FINAL_GENERATED") }) := by
    unfold generate_final_version validate_state_transition
    simp [h1, h2, h4, hds, h3]
  rw [hgen]
  refine ⟨rfl, rfl, _, rfl, ?_⟩
  rw [List.forall₂_map_right_iff, List.forall₂_same]
  intro f _
  exact ⟨rfl, mkFinalHeader schemaName f.1 now (applyFileDecisions ds f.2).2,
    by rw [applyFileDecisions_fst]⟩

/-- A decision list for the concrete generator scenario: one accepted and
one rejected substitution. -/
def genDs : List Decision :=
  [⟨1, strL "PLATFORM_SIT", strL "XX_ENV", strL "c", strL "r", true, strL "LOW", .accept⟩,
   ⟨2, strL "ALTO_SIT", strL "YY_ENV", strL "c2", strL "r2", false, strL "MEDIUM", .reject⟩]

/-- A temp directory ready for generation. -/
def genFs : TempDir :=
  { stateFile := some (.valid "REVIEW_COMPLETE"),
    decisionsFile := some (.parsed genDs),
    rawDir := some [(strL "a.sql", strL "FROM PLATFORM_SIT.T JOIN ALTO_SIT.U"),
                    (strL "b.sql", strL "UPDATE PLATFORM_SIT.V")],
    analysisFile := some [], suggestedDir := true, finalDir := some [] }

/-- Witness for C9 at a concrete generation over two raw files. -/
theorem claim9_witness :
    (generate_final_version genFs (strL "S") (strL "T")).1 = true ∧
    getCurrentState (generate_final_version genFs (strL "S") (strL "T")).2 =
      "FINAL_GENERATED" ∧
    ∃ fin, (generate_final_version genFs (strL "S") (strL "T")).2.finalDir = some fin ∧
      List.Forall₂ (fun (f g : SqlFile) =>
          g.1 = f.1 ∧
          ∃ hdr, g.2 = hdr ++ genDs.foldl (fun c d =>
            if d.decision = Verdict.accept then
              replaceAll d.original d.suggested c
            else c) f.2)
        (((genFs.rawDir).getD []).filter isSqlName) fin := by
  have h := claim9_generator_applies_accepts genFs (strL "S") (strL "T") genDs
    ((genFs.rawDir).getD []) (by decide) rfl (by decide) rfl
  exact h

/-! ## Claims C6 (corrected) and C7 -/

/-- Insertion preserves membership. -/
theorem mem_insertSorted (x y : Str) (l : List Str) :
    y ∈ insertSorted x l ↔ y = x ∨ y ∈ l := by
  induction l with
  | nil => simp [insertSorted]
  | cons z zs ih =>
    unfold insertSorted
    split
    · simp
    · simp [ih]
      tauto

/-- Sorting preserves membership. -/
theorem mem_sortStrs (y : Str) (l : List Str) : y ∈ sortStrs l ↔ y ∈ l := by
  induction l with
  | nil => simp [sortStrs]
  | cons x xs ih => simp [sortStrs, mem_insertSorted, ih]

/-- The iteration key list is exactly the union of the two key sets. -/
theorem mem_allObjectKeys (cur pro : List (Str × Str)) (k : Str) :
    k ∈ allObjectKeys cur pro ↔ k ∈ keysOf cur ∨ k ∈ keysOf pro := by
  unfold allObjectKeys
  rw [mem_sortStrs, List.mem_dedup, List.mem_append]

/-- The condition of `compare_objects`'s `new` branch. -/
def condNew (cur pro : List (Str × Str)) (k : Str) : Prop :=
  sideNorm cur k = [] ∧ sideNorm pro k ≠ []

instance (cur pro : List (Str × Str)) (k : Str) : Decidable (condNew cur pro k) := by
  unfold condNew; infer_instance

/-- The condition of `compare_objects`'s `removed` branch. -/
def condRemoved (cur pro : List (Str × Str)) (k : Str) : Prop :=
  sideNorm cur k ≠ [] ∧ sideNorm pro k = []

instance (cur pro : List (Str × Str)) (k : Str) : Decidable (condRemoved cur pro k) := by
  unfold condRemoved; infer_instance

/-- The condition of `compare_objects`'s `modified` branch (the `elif`
chain). -/
def condModified (cur pro : List (Str × Str)) (k : Str) : Prop :=
  ¬ condNew cur pro k ∧ ¬ condRemoved cur pro k ∧ sideNorm cur k ≠ sideNorm pro k

instance (cur pro : List (Str × Str)) (k : Str) : Decidable (condModified cur pro k) := by
  unfold condModified; infer_instance

/-- The condition of `compare_objects`'s `unchanged` branch. -/
def condUnchanged (cur pro : List (Str × Str)) (k : Str) : Prop :=
  ¬ condNew cur pro k ∧ ¬ condRemoved cur pro k ∧ sideNorm cur k = sideNorm pro k

instance (cur pro : List (Str × Str)) (k : Str) : Decidable (condUnchanged cur pro k) := by
  unfold condUnchanged; infer_instance

/-- The `modified` branch is reached exactly for keys whose two sides both
normalize to nonempty text and differ. -/
theorem condModified_iff (cur pro : List (Str × Str)) (k : Str) :
    condModified cur pro k ↔
      (sideNorm cur k ≠ [] ∧ sideNorm pro k ≠ [] ∧
        sideNorm cur k ≠ sideNorm pro k) := by
  unfold condModified condNew condRemoved
  constructor
  · rintro ⟨hn, hr, hne⟩
    by_cases hc : sideNorm cur k = []
    · by_cases hp : sideNorm pro k = []
      · exact absurd (hc.trans hp.symm) hne
      · exact absurd ⟨hc, hp⟩ hn
    · by_cases hp : sideNorm pro k = []
      · exact absurd ⟨hc, hp⟩ hr
      · exact ⟨hc, hp, hne⟩
  · rintro ⟨hc, hp, hne⟩
    exact ⟨fun h => hc h.1, fun h => hp h.2, hne⟩

/-- The `unchanged` branch is reached exactly for keys whose two sides have
equal normalized forms. -/
theorem condUnchanged_iff (cur pro : List (Str × Str)) (k : Str) :
    condUnchanged cur pro k ↔ sideNorm cur k = sideNorm pro k := by
  unfold condUnchanged condNew condRemoved
  constructor
  · rintro ⟨-, -, h⟩; exact h
  · intro h
    exact ⟨fun hn => hn.2 (h ▸ hn.1), fun hr => hr.1 (h.symm ▸ hr.2), h⟩

/-- Closed form of `compare_objects`'s classification loop: each bucket is
the filter of the key list by its branch condition. -/
theorem classify_foldl (cur pro : List (Str × Str)) :
    ∀ (ks : List Str) (acc : ObjChanges),
      ks.foldl (classifyStep cur pro) acc =
        { new := acc.new ++ ks.filter fun k => decide (condNew cur pro k)
          modified := acc.modified ++ ks.filter fun k => decide (condModified cur pro k)
          removed := acc.removed ++ ks.filter fun k => decide (condRemoved cur pro k)
          unchanged := acc.unchanged ++ ks.filter fun k => decide (condUnchanged cur pro k) } := by
  intro ks
  induction ks with
  | nil => intro acc; simp
  | cons k ks ih =>
    intro acc
    rw [List.foldl_cons, ih]
    have hstep : classifyStep cur pro acc k =
        if condNew cur pro k then { acc with new := acc.new ++ [k] }
        else if condRemoved cur pro k then { acc with removed := acc.removed ++ [k] }
        else if sideNorm cur k ≠ sideNorm pro k then
          { acc with modified := acc.modified ++ [k] }
        else { acc with unchanged := acc.unchanged ++ [k] } := rfl
    by_cases h1 : condNew cur pro k
    · have e2 : ¬ condRemoved cur pro k := fun hr => hr.1 h1.1
      have e3 : ¬ condModified cur pro k := fun hm => hm.1 h1
      have e4 : ¬ condUnchanged cur pro k := fun hu => hu.1 h1
      rw [hstep, if_pos h1]
      simp [List.filter_cons, h1, e2, e3, e4, List.append_assoc]
    · by_cases h2 : condRemoved cur pro k
      · have e3 : ¬ condModified cur pro k := fun hm => hm.2.1 h2
        have e4 : ¬ condUnchanged cur pro k := fun hu => hu.2.1 h2
        rw [hstep, if_neg h1, if_pos h2]
        simp [List.filter_cons, h1, h2, e3, e4, List.append_assoc]
      · by_cases h3 : sideNorm cur k ≠ sideNorm pro k
        · have e3 : condModified cur pro k := ⟨h1, h2, h3⟩
          have e4 : ¬ condUnchanged cur pro k := fun hu => h3 hu.2.2
          rw [hstep, if_neg h1, if_neg h2, if_pos h3]
          simp [List.filter_cons, h1, h2, e3, e4, List.append_assoc]
        · have e4 : condUnchanged cur pro k := ⟨h1, h2, not_not.mp h3⟩
          have e3 : ¬ condModified cur pro k := fun hm => h3 hm.2.2
          rw [hstep, if_neg h1, if_neg h2, if_neg h3]
          simp [List.filter_cons, h1, h2, e3, e4, List.append_assoc]

/-- Unfolding of `compare_grants` with its locals inlined. -/
theorem compare_grants_def (cur pro : List Str) :
    compare_grants cur pro =
      { new := (pro.map normalize_grant).dedup.filter
          fun g => !decide (g ∈ (cur.map normalize_grant).dedup)
        removed := (cur.map normalize_grant).dedup.filter
          fun g => !decide (g ∈ (pro.map normalize_grant).dedup)
        unchanged := (cur.map normalize_grant).dedup.filter
          fun g => decide (g ∈ (pro.map normalize_grant).dedup) } := rfl

/-- Bucket membership for `compare_objects`. -/
theorem compare_objects_mem (cur pro : List (Str × Str)) (k : Str) :
    (k ∈ (compare_objects cur pro).new ↔
      k ∈ allObjectKeys cur pro ∧ condNew cur pro k) ∧
    (k ∈ (compare_objects cur pro).removed ↔
      k ∈ allObjectKeys cur pro ∧ condRemoved cur pro k) ∧
    (k ∈ (compare_objects cur pro).modified ↔
      k ∈ allObjectKeys cur pro ∧ condModified cur pro k) ∧
    (k ∈ (compare_objects cur pro).unchanged ↔
      k ∈ allObjectKeys cur pro ∧ condUnchanged cur pro k) := by
  unfold compare_objects
  rw [classify_foldl]
  simp [List.mem_filter]

/--
Counterexample to claim C6 as stated: with the key `TABLE:A` present in both
mappings — current side a comment-only DDL, proposed side a real definition,
so the normalized forms differ — the claim requires classification
`modified` (present in both with differing normalized DDL), but the code
classifies by emptiness of the normalized text and puts the key in `new`.
-/
theorem claim6_counterexample :
    strL "TABLE:A" ∈ keysOf [(strL "TABLE:A", strL "-- X")] ∧
    strL "TABLE:A" ∈ keysOf [(strL "TABLE:A", strL "CREATE TABLE A(X INT)")] ∧
    sideNorm [(strL "TABLE:A", strL "-- X")] (strL "TABLE:A") ≠
      sideNorm [(strL "TABLE:A", strL "CREATE TABLE A(X INT)")] (strL "TABLE:A") ∧
    strL "TABLE:A" ∉
      (compare_objects [(strL "TABLE:A", strL "-- X")]
        [(strL "TABLE:A", strL "CREATE TABLE A(X INT)")]).modified ∧
    strL "TABLE:A" ∈
      (compare_objects [(strL "TABLE:A", strL "-- X")]
        [(strL "TABLE:A", strL "CREATE TABLE A(X INT)")]).new := by decide

/--
Claim C6 as amended: `compare_objects` classifies each key of the union of
the key sets by the emptiness of the normalized DDL of each side (an absent
key and a key whose DDL normalizes to nothing, e.g. comments or whitespace
only, are indistinguishable): `new` iff the current side normalizes to
empty and the proposed side does not, `removed` symmetrically, `modified`
iff both sides are nonempty and differ, `unchanged` iff the normalized
forms are equal (including both empty); every key of the union lands in
exactly one bucket.  Grants are classified by set difference over
normalized forms into `new`, `removed` and `unchanged` only, with no
`modified` bucket.
-/
theorem claim6_amended (cur pro : List (Str × Str)) (curG proG : List Str) (k g : Str)
    (hk : k ∈ allObjectKeys cur pro) :
    (k ∈ (compare_objects cur pro).new ↔
      (sideNorm cur k = [] ∧ sideNorm pro k ≠ [])) ∧
    (k ∈ (compare_objects cur pro).removed ↔
      (sideNorm cur k ≠ [] ∧ sideNorm pro k = [])) ∧
    (k ∈ (compare_objects cur pro).modified ↔
      (sideNorm cur k ≠ [] ∧ sideNorm pro k ≠ [] ∧
        sideNorm cur k ≠ sideNorm pro k)) ∧
    (k ∈ (compare_objects cur pro).unchanged ↔
      sideNorm cur k = sideNorm pro k) ∧
    (k ∈ (compare_objects cur pro).new ∨ k ∈ (compare_objects cur pro).removed ∨
      k ∈ (compare_objects cur pro).modified ∨ k ∈ (compare_objects cur pro).unchanged) ∧
    (k ∈ (compare_objects cur pro).new →
      k ∉ (compare_objects cur pro).removed ∧ k ∉ (compare_objects cur pro).modified ∧
        k ∉ (compare_objects cur pro).unchanged) ∧
    (k ∈ (compare_objects cur pro).removed →
      k ∉ (compare_objects cur pro).modified ∧ k ∉ (compare_objects cur pro).unchanged) ∧
    (k ∈ (compare_objects cur pro).modified → k ∉ (compare_objects cur pro).unchanged) ∧
    (g ∈ (compare_grants curG proG).new ↔
      g ∈ (proG.map normalize_grant).dedup ∧ g ∉ (curG.map normalize_grant).dedup) ∧
    (g ∈ (compare_grants curG proG).removed ↔
      g ∈ (curG.map normalize_grant).dedup ∧ g ∉ (proG.map normalize_grant).dedup) ∧
    (g ∈ (compare_grants curG proG).unchanged ↔
      g ∈ (curG.map normalize_grant).dedup ∧ g ∈ (proG.map normalize_grant).dedup) := by
  obtain ⟨m1, m2, m3, m4⟩ := compare_objects_mem cur pro k
  have i3 := condModified_iff cur pro k
  have i4 := condUnchanged_iff cur pro k
  refine ⟨?_, ?_, ?_, ?_, ?_, ?_, ?_, ?_, ?_, ?_, ?_⟩
  · rw [m1]; unfold condNew; exact ⟨fun h => h.2, fun h => ⟨hk, h⟩⟩
  · rw [m2]; unfold condRemoved; exact ⟨fun h => h.2, fun h => ⟨hk, h⟩⟩
  · rw [m3, i3]; exact ⟨fun h => h.2, fun h => ⟨hk, h⟩⟩
  · rw [m4, i4]; exact ⟨fun h => h.2, fun h => ⟨hk, h⟩⟩
  · rw [m1, m2, m3, m4]
    by_cases h1 : condNew cur pro k
    · exact Or.inl ⟨hk, h1⟩
    · by_cases h2 : condRemoved cur pro k
      · exact Or.inr (Or.inl ⟨hk, h2⟩)
      · by_cases h3 : sideNorm cur k = sideNorm pro k
        · exact Or.inr (Or.inr (Or.inr ⟨hk, ⟨h1, h2, h3⟩⟩))
        · exact Or.inr (Or.inr (Or.inl ⟨hk, ⟨h1, h2, h3⟩⟩))
  · rw [m1, m2, m3, m4]
    rintro ⟨-, hn⟩
    refine ⟨fun h => h.2.1 hn.1, fun h => h.2.1 hn, fun h => h.2.1 hn⟩
  · rw [m2, m3, m4]
    rintro ⟨-, hr⟩
    exact ⟨fun h => h.2.2.1 hr, fun h => h.2.2.1 hr⟩
  · rw [m3, m4]
    rintro ⟨-, hm⟩
    exact fun h => hm.2.2 h.2.2.2
  · rw [compare_grants_def]
    simp [List.mem_filter]
  · rw [compare_grants_def]
    simp [List.mem_filter]
  · rw [compare_grants_def]
    simp [List.mem_filter]

/-- Witness for the amended C6 at the concrete counterexample mappings. -/
theorem claim6_witness :
    strL "TABLE:A" ∈
      (compare_objects [(strL "TABLE:A", strL "-- X")]
        [(strL "TABLE:A", strL "CREATE TABLE A(X INT)")]).new ∧
    strL "G" ∈ (compare_grants [] [strL "G"]).new := by
  obtain ⟨m1, -, -, -, -, -, -, -, g1, -, -⟩ :=
    claim6_amended [(strL "TABLE:A", strL "-- X")]
      [(strL "TABLE:A", strL "CREATE TABLE A(X INT)")]
      [] [strL "G"] (strL "TABLE:A") (strL "G") (by decide)
  exact ⟨m1.mpr (by decide), g1.mpr (by decide)⟩

/--
Claim C7: the comparison command's verdict is `1` when gathering the
comparison inputs fails with an error; on success it is `0` exactly when no
meaningful changes exist and `2` exactly when meaningful changes are
present (meaningful changes being the object changes, new grants, and
removed grants that are environment cleanup); in particular, when current
and proposed object DDL and grant sets are identical after normalization,
the object comparison reports zero new, modified and removed objects, the
grant comparison reports zero new and removed grants, and the verdict is
`0`.
-/
theorem claim7_verdict_gate (i : CompareInputs) (err : Unit) :
    compare_main (.error err) = 1 ∧
    (compare_main (.ok i) = 0 ↔
      meaningfulChanges i.target_env
        (compare_objects i.current_objects i.proposed_objects)
        (compare_grants i.current_grants i.proposed_grants) = 0) ∧
    (compare_main (.ok i) = 2 ↔
      0 < meaningfulChanges i.target_env
        (compare_objects i.current_objects i.proposed_objects)
        (compare_grants i.current_grants i.proposed_grants)) ∧
    ((∀ k, k ∈ allObjectKeys i.current_objects i.proposed_objects →
        sideNorm i.current_objects k = sideNorm i.proposed_objects k) →
     (∀ x, x ∈ (i.current_grants.map normalize_grant).dedup ↔
        x ∈ (i.proposed_grants.map normalize_grant).dedup) →
     (compare_objects i.current_objects i.proposed_objects).new = [] ∧
     (compare_objects i.current_objects i.proposed_objects).modified = [] ∧
     (compare_objects i.current_objects i.proposed_objects).removed = [] ∧
     (compare_grants i.current_grants i.proposed_grants).new = [] ∧
     (compare_grants i.current_grants i.proposed_grants).removed = [] ∧
     compare_main (.ok i) = 0) := by
  have hok : compare_main (.ok i) =
      compareVerdict i.target_env
        (compare_objects i.current_objects i.proposed_objects)
        (compare_grants i.current_grants i.proposed_grants) := rfl
  refine ⟨rfl, ?_, ?_, ?_⟩
  · rw [hok]; unfold compareVerdict
    split
    · rename_i h; simp [h.1]
    · rename_i h
      split
      · rename_i h2; constructor
        · intro h0; omega
        · intro h0; omega
      · rename_i h2
        constructor
        · intro _; omega
        · intro _; rfl
  · rw [hok]; unfold compareVerdict
    split
    · rename_i h
      constructor
      · intro h0; omega
      · intro h0; omega
    · rename_i h
      split
      · rename_i h2; constructor
        · intro _; omega
        · intro _; rfl
      · rename_i h2; constructor
        · intro h0; omega
        · intro h0; omega
  · intro hobj hg
    have hnew : (compare_objects i.current_objects i.proposed_objects).new = [] := by
      unfold compare_objects
      rw [classify_foldl]
      simp only [List.nil_append]
      rw [List.filter_eq_nil_iff]
      intro k hkk
      simp only [decide_eq_true_eq]
      intro hc
      exact hc.2 ((hobj k hkk) ▸ hc.1)
    have hmod : (compare_objects i.current_objects i.proposed_objects).modified = [] := by
      unfold compare_objects
      rw [classify_foldl]
      simp only [List.nil_append]
      rw [List.filter_eq_nil_iff]
      intro k hkk
      simp only [decide_eq_true_eq]
      intro hc
      exact hc.2.2 (hobj k hkk)
    have hrem : (compare_objects i.current_objects i.proposed_objects).removed = [] := by
      unfold compare_objects
      rw [classify_foldl]
      simp only [List.nil_append]
      rw [List.filter_eq_nil_iff]
      intro k hkk
      simp only [decide_eq_true_eq]
      intro hc
      exact hc.1 ((hobj k hkk).symm ▸ hc.2)
    have hgnew : (compare_grants i.current_grants i.proposed_grants).new = [] := by
      rw [compare_grants_def]
      simp only []
      rw [List.filter_eq_nil_iff]
      intro x hx
      simp [(hg x).mpr hx]
    have hgrem : (compare_grants i.current_grants i.proposed_grants).removed = [] := by
      rw [compare_grants_def]
      simp only []
      rw [List.filter_eq_nil_iff]
      intro x hx
      simp [(hg x).mp hx]
    refine ⟨hnew, hmod, hrem, hgnew, hgrem, ?_⟩
    rw [hok]
    unfold compareVerdict meaningfulChanges
    rw [hnew, hmod, hrem, hgnew, hgrem]
    simp [environmentCleanupGrants, scopeCleanupGrants]

/-- Witness for C7 at the error input and at empty identical inputs. -/
theorem claim7_witness :
    compare_main (.error ()) = 1 ∧
    compare_main (.ok ⟨[], [], [], [], strL "SIT"⟩) = 0 := by
  obtain ⟨h1, -, -, h4⟩ := claim7_verdict_gate ⟨[], [], [], [], strL "SIT"⟩ ()
  exact ⟨h1, (h4 (fun k _ => rfl) (fun x => Iff.rfl)).2.2.2.2.2⟩

/-! ## Claim C4 (corrected)

Normalization is not idempotent: a second `normalize_ddl` pass can strip a
further trailing semicolon (the `;\s*$` substitution removes one layer per
pass), and a second `normalize_grant` pass can strip a further quote layer.
The amended claim proves idempotence for every input whose first pass lands
in a syntactic normal form, characterized by the decidable predicates
`NormalDdl` / `NormalGrant` below: each normalization stage fixes every
string in normal form. -/

/-- Boolean check of a relation on every adjacent pair. -/
def pairsOK (R : Char → Char → Bool) : Str → Bool
  | [] => true
  | [_] => true
  | a :: b :: rest => R a b && pairsOK R (b :: rest)

theorem pairsOK_tail {R : Char → Char → Bool} {c : Char} {rest : Str}
    (h : pairsOK R (c :: rest) = true) : pairsOK R rest = true := by
  cases rest with
  | nil => rfl
  | cons d t =>
    simp only [pairsOK, Bool.and_eq_true] at h
    exact h.2

theorem pairsOK_head {R : Char → Char → Bool} {c d : Char} {t : Str}
    (h : pairsOK R (c :: d :: t) = true) : R c d = true := by
  simp only [pairsOK, Bool.and_eq_true] at h
  exact h.1

/-- No adjacent pair of dashes (so the comment pass finds nothing). -/
def noDD (a b : Char) : Bool := !(decide (a = '-') && decide (b = '-'))

/-- No adjacent pair of whitespace characters. -/
def noAdjWs (a b : Char) : Bool := !(isWs a && isWs b)

/-- No whitespace adjacent to a `P`-character. -/
def noWsAdjB (P : Char → Bool) (a b : Char) : Bool :=
  !(isWs a && P b) && !(P a && isWs b)

/-- Every character is fixed by upper-casing. -/
def AllUpper (s : Str) : Prop := ∀ c ∈ s, Char.toUpper c = c

/-- Every whitespace character is a plain space. -/
def WsSpace (s : Str) : Prop := ∀ c ∈ s, isWs c = true → c = ' '

/-- Fixed by `strip()`: no leading and no trailing whitespace. -/
def StripFixed (s : Str) : Prop :=
  s.dropWhile isWs = s ∧ s.reverse.dropWhile isWs = s.reverse

/-- No suffix of the string begins a placeholder-pattern match. -/
def varFree : Str → Bool
  | [] => (matchVar []).isNone
  | c :: rest => (matchVar (c :: rest)).isNone && varFree rest

/-- Syntactic normal form for `normalize_ddl`: each stage of the pipeline
fixes such a string. -/
def NormalDdl (s : Str) : Prop :=
  AllUpper s ∧ StripFixed s ∧ pairsOK noDD s = true ∧
  (WsSpace s ∧ pairsOK noAdjWs s = true) ∧
  pairsOK (noWsAdjB isPunct) s = true ∧
  pairsOK (noWsAdjB isCommaCh) s = true ∧
  pairsOK (noWsAdjB isEqCh) s = true ∧
  s.getLast? ≠ some ';' ∧ varFree s = true

/-- Syntactic normal form for `normalize_grant`. -/
def NormalGrant (s : Str) : Prop :=
  AllUpper s ∧ StripFixed s ∧ (WsSpace s ∧ pairsOK noAdjWs s = true) ∧
  quoteCh ∉ s ∧ dquoteCh ∉ s

instance (s : Str) : Decidable (NormalDdl s) := by
  unfold NormalDdl AllUpper WsSpace StripFixed; infer_instance

instance (s : Str) : Decidable (NormalGrant s) := by
  unfold NormalGrant AllUpper WsSpace StripFixed; infer_instance

/-- Map under upper-casing fixes an already upper string. -/
theorem upperList_fixed {s : Str} (h : AllUpper s) : upperList s = s := by
  unfold upperList
  induction s with
  | nil => rfl
  | cons c rest ih =>
    rw [List.map_cons, h c (List.mem_cons_self c rest),
      ih fun x hx => h x (List.mem_cons_of_mem _ hx)]

/-- Stripping fixes a string with no boundary whitespace. -/
theorem stripList_fixed {s : Str} (h : StripFixed s) : stripList s = s := by
  unfold stripList
  rw [h.1, h.2, List.reverse_reverse]

/-- The comment pass fixes a string with no `--`. -/
theorem rmC_fixed {s : Str} (h : pairsOK noDD s = true) : rmC false s = s := by
  induction s with
  | nil => rfl
  | cons c rest ih =>
    cases rest with
    | nil => rfl
    | cons d rest2 =>
      have hnd : ¬(c = '-' ∧ d = '-') := by
        have := pairsOK_head h
        unfold noDD at this
        simp only [Bool.not_eq_true', Bool.and_eq_false_iff, decide_eq_false_iff_not] at this
        rintro ⟨h1, h2⟩
        rcases this with h' | h' <;> exact h' (by assumption)
      show (if c = '-' ∧ d = '-' then rmC true rest2 else c :: rmC false (d :: rest2)) =
        c :: d :: rest2
      rw [if_neg hnd, ih (pairsOK_tail h)]

/-- The whitespace-collapsing scanner fixes a canonical string (in mode
`true` additionally when the head is not whitespace). -/
theorem clps_fixed_aux : ∀ (s : Str), WsSpace s → pairsOK noAdjWs s = true →
    clps false s = s ∧ ((∀ c, s.head? = some c → isWs c = false) → clps true s = s) := by
  intro s
  induction s with
  | nil => intro _ _; exact ⟨rfl, fun _ => rfl⟩
  | cons c rest ih =>
    intro hsp hadj
    obtain ⟨ih1, ih2⟩ := ih (fun x hx => hsp x (List.mem_cons_of_mem _ hx)) (pairsOK_tail hadj)
    have hresthead : ∀ d, rest.head? = some d → isWs c = true → isWs d = false := by
      intro d hd hw
      cases rest with
      | nil => simp at hd
      | cons d0 rest0 =>
        simp only [List.head?_cons, Option.some_inj] at hd
        subst hd
        have := pairsOK_head hadj
        unfold noAdjWs at this
        simp only [Bool.not_eq_true', Bool.and_eq_false_iff] at this
        rcases this with h' | h'
        · exact absurd hw (by simp [h'])
        · exact h'
    constructor
    · show clps false (c :: rest) = c :: rest
      by_cases hw : isWs c = true
      · have hc : c = ' ' := hsp c (List.mem_cons_self _ _) hw
        simp only [clps, hw, if_true]
        rw [ih2 (fun d hd => hresthead d hd hw), hc]
      · simp only [clps, hw]
        rw [ih1]
        simp
    · intro hh
      have hw : isWs c = false := hh c rfl
      show clps true (c :: rest) = c :: rest
      simp only [clps, hw]
      rw [ih1]
      simp

/-- The squeezing scanner fixes a string whose whitespace is canonical and
not adjacent to any `P`-character (in mode `true` additionally when the
head is not whitespace). -/
theorem sqzF_fixed (P : Char → Bool) :
    ∀ (n : Nat) (s : Str), pairsOK noAdjWs s = true → pairsOK (noWsAdjB P) s = true →
      (sqzF P n false s = s ∧
        ((∀ c, s.head? = some c → isWs c = false) → sqzF P n true s = s)) := by
  intro n
  induction n with
  | zero => intro s _ _; exact ⟨rfl, fun _ => rfl⟩
  | succ n ih =>
    intro s hadj hpw
    cases s with
    | nil => exact ⟨rfl, fun _ => rfl⟩
    | cons c rest =>
      obtain ⟨ih1, ih2⟩ := ih rest (pairsOK_tail hadj) (pairsOK_tail hpw)
      have hPtail : P c = true → ∀ d, rest.head? = some d → isWs d = false := by
        intro hP d hd
        cases rest with
        | nil => simp at hd
        | cons d0 t =>
          simp only [List.head?_cons, Option.some_inj] at hd
          subst hd
          have hh := pairsOK_head hpw
          unfold noWsAdjB at hh
          simp only [Bool.and_eq_true, Bool.not_eq_true', Bool.and_eq_false_iff] at hh
          rcases hh.2 with h' | h'
          · exact absurd hP (by simp [h'])
          · exact h'
      constructor
      · show sqzF P (n + 1) false (c :: rest) = c :: rest
        by_cases hP : P c = true
        · have ihh := ih2 (hPtail hP)
          simp [sqzF, hP, ihh]
        · by_cases hw : isWs c = true
          · have hlead : wsLeadsTo P (c :: rest) = false := by
              unfold wsLeadsTo
              rw [List.dropWhile_cons_of_pos hw]
              cases rest with
              | nil => simp
              | cons d t =>
                have hd : isWs d = false := by
                  have hh := pairsOK_head hadj
                  unfold noAdjWs at hh
                  simp only [Bool.not_eq_true', Bool.and_eq_false_iff] at hh
                  rcases hh with h' | h'
                  · exact absurd hw (by simp [h'])
                  · exact h'
                rw [List.dropWhile_cons_of_neg (by simp [hd])]
                show P d = false
                have hh := pairsOK_head hpw
                unfold noWsAdjB at hh
                simp only [Bool.and_eq_true, Bool.not_eq_true', Bool.and_eq_false_iff] at hh
                rcases hh.1 with h' | h'
                · exact absurd hw (by simp [h'])
                · exact h'
            simp [sqzF, hP, hw, hlead, ih1]
          · simp [sqzF, hP, hw, ih1]
      · intro hh
        have hw : isWs c = false := hh c rfl
        show sqzF P (n + 1) true (c :: rest) = c :: rest
        by_cases hP : P c = true
        · have ihh := ih2 (hPtail hP)
          simp [sqzF, hw, hP, ihh]
        · simp [sqzF, hw, hP, ih1]

/-- The trailing-semicolon pass fixes a string with no trailing whitespace
whose last character is not a semicolon. -/
theorem stripTrailingSemi_fixed {s : Str} (h2 : s.reverse.dropWhile isWs = s.reverse)
    (h3 : s.getLast? ≠ some ';') : stripTrailingSemi s = s := by
  unfold stripTrailingSemi
  rw [h2]
  cases hrev : s.reverse with
  | nil => rfl
  | cons c rest =>
    have hc : ¬ c = ';' := by
      intro he
      apply h3
      rw [List.getLast?_eq_head?_reverse, hrev, he]
      rfl
    simp [hc]

/-- The placeholder pass fixes a string none of whose suffixes matches the
placeholder pattern. -/
theorem substVarF_fixed : ∀ (n : Nat) (s : Str), varFree s = true → substVarF n s = s := by
  intro n
  induction n with
  | zero => intro s _; rfl
  | succ n ih =>
    intro s hv
    cases s with
    | nil => rfl
    | cons c rest =>
      unfold varFree at hv
      rw [Bool.and_eq_true] at hv
      have hm : matchVar (c :: rest) = none := Option.isNone_iff_eq_none.mp hv.1
      show (match matchVar (c :: rest) with
            | some r => 'S' :: 'I' :: 'T' :: substVarF n r
            | none => c :: substVarF n rest) = c :: rest
      rw [hm]
      show c :: substVarF n rest = c :: rest
      rw [ih rest hv.2]

/-- A successful `expectChars` means the pattern is a prefix. -/
theorem expectChars_append {ps l r : Str} (h : expectChars ps l = some r) :
    l = ps ++ r := by
  induction ps generalizing l with
  | nil =>
    simp only [expectChars, Option.some_inj] at h
    simp [h]
  | cons p ps ih =>
    cases l with
    | nil => simp [expectChars] at h
    | cons c l =>
      simp only [expectChars] at h
      split at h
      · rename_i hc
        rw [List.cons_append, hc, ih h]
      · simp at h

/-- A successful `IDENTIFIER` match means the quote occurs in the text. -/
theorem matchIdent_mem {q : Char} {l : Str} {x : Str × Str}
    (h : matchIdent q l = some x) : q ∈ l := by
  unfold matchIdent at h
  simp only [Option.bind_eq_some] at h
  obtain ⟨rest, h1, -⟩ := h
  rw [expectChars_append h1]
  simp [identOpen]

/-- The `IDENTIFIER` pass fixes a quote-free string. -/
theorem unwrapIdentF_fixed (q : Char) : ∀ (n : Nat) (s : Str), q ∉ s →
    unwrapIdentF q n s = s := by
  intro n
  induction n with
  | zero => intro s _; rfl
  | succ n ih =>
    intro s hq
    cases s with
    | nil => rfl
    | cons c rest =>
      have hm : matchIdent q (c :: rest) = none := by
        cases hmi : matchIdent q (c :: rest) with
        | none => rfl
        | some x => exact absurd (matchIdent_mem hmi) hq
      show (match matchIdent q (c :: rest) with
            | some (inner, rest3) => inner ++ unwrapIdentF q n rest3
            | none => c :: unwrapIdentF q n rest) = c :: rest
      rw [hm]
      show c :: unwrapIdentF q n rest = c :: rest
      rw [ih rest fun hr => hq (List.mem_cons_of_mem _ hr)]

/-- The quote-stripping pass fixes a quote-free string. -/
theorem stripQF_fixed (q : Char) : ∀ (n : Nat) (s : Str), q ∉ s →
    stripQF q n s = s := by
  intro n
  induction n with
  | zero => intro s _; rfl
  | succ n ih =>
    intro s hq
    cases s with
    | nil => rfl
    | cons c rest =>
      have hc : ¬ c = q := fun he => hq (he ▸ List.mem_cons_self c rest)
      simp only [stripQF]
      rw [if_neg hc, ih rest fun hr => hq (List.mem_cons_of_mem _ hr)]

/-- A string in `NormalDdl` form is a fixed point of `normalize_ddl`. -/
theorem normalize_ddl_fixed {s : Str} (h : NormalDdl s) : normalize_ddl s = s := by
  obtain ⟨hup, hst, hdd, ⟨hsp, hws⟩, hp1, hp2, hp3, hsemi, hvar⟩ := h
  unfold normalize_ddl
  by_cases hs : s = []
  · rw [if_pos hs, hs]
  · rw [if_neg hs]
    rw [upperList_fixed hup, stripList_fixed hst]
    show stripList (substVar (stripTrailingSemi (squeezeAround isEqCh
      (squeezeAround isCommaCh (squeezeAround isPunct
        (collapseWs (removeComments s))))))) = s
    rw [show removeComments s = s from rmC_fixed hdd]
    rw [show collapseWs s = s from (clps_fixed_aux s hsp hws).1]
    unfold squeezeAround
    rw [(sqzF_fixed isPunct s.length s hws hp1).1]
    rw [(sqzF_fixed isCommaCh s.length s hws hp2).1]
    rw [(sqzF_fixed isEqCh s.length s hws hp3).1]
    rw [stripTrailingSemi_fixed hst.2 hsemi]
    unfold substVar
    rw [substVarF_fixed s.length s hvar]
    exact stripList_fixed hst

/-- A string in `NormalGrant` form is a fixed point of `normalize_grant`. -/
theorem normalize_grant_fixed {s : Str} (h : NormalGrant s) : normalize_grant s = s := by
  obtain ⟨hup, hst, ⟨hsp, hws⟩, hq1, hq2⟩ := h
  unfold normalize_grant
  rw [upperList_fixed hup, stripList_fixed hst]
  unfold unwrapIdent
  rw [unwrapIdentF_fixed quoteCh s.length s hq1,
    unwrapIdentF_fixed dquoteCh s.length s hq2]
  rw [show collapseWs s = s from (clps_fixed_aux s hsp hws).1]
  unfold stripQ
  rw [stripQF_fixed quoteCh s.length s hq1, stripQF_fixed dquoteCh s.length s hq2]
  exact stripList_fixed hst

/--
Counterexample to claim C4 as stated: normalizing twice differs from
normalizing once on `;;` for DDL (the trailing-semicolon substitution
removes one semicolon per pass) and on a doubly quoted `A` for grants (the
quote substitution strips one quote layer per pass).
-/
theorem claim4_counterexample :
    normalize_ddl (normalize_ddl (strL ";;")) ≠ normalize_ddl (strL ";;") ∧
    normalize_grant (normalize_grant [quoteCh, quoteCh, 'A', quoteCh, quoteCh]) ≠
      normalize_grant [quoteCh, quoteCh, 'A', quoteCh, quoteCh] := by decide

/-! ### The normalized output is itself in normal form

The remaining lemmas show that `normalize_ddl` always lands in `NormalDdl`
form except possibly for a residual trailing semicolon, and `normalize_grant`
lands in `NormalGrant` form except possibly for residual quote characters or
doubled whitespace uncovered by quote stripping — so those are the only
sources of non-idempotence. -/

theorem toNat_ofNat_small {n : Nat} (h : n < 55296) : (Char.ofNat n).toNat = n := by
  unfold Char.ofNat
  rw [dif_pos (Or.inl h)]
  rfl

theorem toUpper_idem (c : Char) : Char.toUpper (Char.toUpper c) = Char.toUpper c := by
  by_cases h : 97 ≤ c.toNat ∧ c.toNat ≤ 122
  · have h1 : Char.toUpper c = Char.ofNat (c.toNat - 32) := by
      unfold Char.toUpper
      exact if_pos ⟨h.1, h.2⟩
    have ht : (Char.ofNat (c.toNat - 32)).toNat = c.toNat - 32 :=
      toNat_ofNat_small (by omega)
    rw [h1]
    unfold Char.toUpper
    rw [if_neg]
    rw [ht]
    omega
  · have h1 : Char.toUpper c = c := by
      unfold Char.toUpper
      exact if_neg fun hc => h ⟨hc.1, hc.2⟩
    rw [h1, h1]

theorem pairsOK_cons {R : Char → Char → Bool} {c : Char} {t : Str}
    (hh : ∀ d, t.head? = some d → R c d = true) (ht : pairsOK R t = true) :
    pairsOK R (c :: t) = true := by
  cases t with
  | nil => rfl
  | cons d u =>
    simp only [pairsOK, Bool.and_eq_true]
    exact ⟨hh d rfl, ht⟩

theorem pairsOK_append_left {R : Char → Char → Bool} :
    ∀ {u v : Str}, pairsOK R (u ++ v) = true → pairsOK R v = true := by
  intro u
  induction u with
  | nil => intro v h; exact h
  | cons x u ih => intro v h; exact ih (pairsOK_tail h)

theorem pairsOK_append_right {R : Char → Char → Bool} :
    ∀ {u v : Str}, pairsOK R (u ++ v) = true → pairsOK R u = true := by
  intro u
  induction u with
  | nil => intro v _; rfl
  | cons x u ih =>
    intro v h
    cases u with
    | nil => rfl
    | cons y u2 =>
      refine pairsOK_cons (fun d hd => ?_) (ih (pairsOK_tail h))
      simp only [List.head?_cons, Option.some_inj] at hd
      subst hd
      exact pairsOK_head h

theorem pairsOK_of_prefix {R : Char → Char → Bool} {t s : Str}
    (hp : t <+: s) (h : pairsOK R s = true) : pairsOK R t = true := by
  obtain ⟨u, hu⟩ := hp
  rw [← hu] at h
  exact pairsOK_append_right h

theorem pairsOK_of_suffix {R : Char → Char → Bool} {t s : Str}
    (hp : t <:+ s) (h : pairsOK R s = true) : pairsOK R t = true := by
  obtain ⟨u, hu⟩ := hp
  rw [← hu] at h
  exact pairsOK_append_left h

theorem pairsOK_of_infix {R : Char → Char → Bool} {t s : Str}
    (hp : t <:+: s) (h : pairsOK R s = true) : pairsOK R t = true := by
  obtain ⟨u, v, hu⟩ := hp
  rw [← hu] at h
  exact pairsOK_append_left (pairsOK_append_right h)

/-- The comment scanner only keeps input characters. -/
theorem rmC_mem : ∀ (b : Bool) (s : Str) (c : Char), c ∈ rmC b s → c ∈ s := by
  intro b s
  induction b, s using rmC.induct with
  | case1 b =>
    intro c h
    rw [show rmC b [] = [] from by cases b <;> rfl] at h
    exact absurd h (List.not_mem_nil c)
  | case2 rest ih =>
    intro c h
    simp only [rmC, if_pos rfl] at h
    rcases List.mem_cons.mp h with h | h
    · simp [h]
    · exact List.mem_cons_of_mem _ (ih c h)
  | case3 c0 rest hne ih =>
    intro c h
    simp only [rmC, if_neg hne] at h
    exact List.mem_cons_of_mem _ (ih c h)
  | case4 c0 =>
    intro c h
    simpa [rmC] using h
  | case5 c0 d rest2 heq ih =>
    intro c h
    simp only [rmC, if_pos heq] at h
    exact List.mem_cons_of_mem _ (List.mem_cons_of_mem _ (ih c h))
  | case6 c0 d rest2 hne ih =>
    intro c h
    have h2 : c ∈ c0 :: rmC false (d :: rest2) := by
      simpa [rmC, hne] using h
    rcases List.mem_cons.mp h2 with h | h
    · simp [h]
    · exact List.mem_cons_of_mem _ (ih c h)

/-- The collapsing scanner keeps only non-whitespace input characters and
inserted spaces. -/
theorem clps_mem : ∀ (b : Bool) (s : Str) (c : Char), c ∈ clps b s →
    (c ∈ s ∧ isWs c = false) ∨ c = ' ' := by
  intro b s
  induction b, s using clps.induct with
  | case1 b =>
    intro c h
    rw [show clps b [] = [] from by cases b <;> rfl] at h
    exact absurd h (List.not_mem_nil c)
  | case2 c0 rest hws ih =>
    intro c h
    simp only [clps, hws, if_true] at h
    rcases ih c h with ⟨h1, h2⟩ | h1
    · exact Or.inl ⟨List.mem_cons_of_mem _ h1, h2⟩
    · exact Or.inr h1
  | case3 c0 rest hws ih =>
    intro c h
    simp only [clps] at h
    rw [if_neg hws] at h
    rcases List.mem_cons.mp h with h | h
    · subst h; exact Or.inl ⟨List.mem_cons_self _ _, by simpa using hws⟩
    · rcases ih c h with ⟨h1, h2⟩ | h1
      · exact Or.inl ⟨List.mem_cons_of_mem _ h1, h2⟩
      · exact Or.inr h1
  | case4 c0 rest hws ih =>
    intro c h
    simp only [clps, hws, if_true] at h
    rcases List.mem_cons.mp h with h | h
    · exact Or.inr h
    · rcases ih c h with ⟨h1, h2⟩ | h1
      · exact Or.inl ⟨List.mem_cons_of_mem _ h1, h2⟩
      · exact Or.inr h1
  | case5 c0 rest hws ih =>
    intro c h
    simp only [clps] at h
    rw [if_neg hws] at h
    rcases List.mem_cons.mp h with h | h
    · subst h; exact Or.inl ⟨List.mem_cons_self _ _, by simpa using hws⟩
    · rcases ih c h with ⟨h1, h2⟩ | h1
      · exact Or.inl ⟨List.mem_cons_of_mem _ h1, h2⟩
      · exact Or.inr h1

/-- The squeezing scanner only keeps input characters. -/
theorem sqzF_mem (P : Char → Bool) :
    ∀ (n : Nat) (b : Bool) (s : Str) (c : Char), c ∈ sqzF P n b s → c ∈ s := by
  intro n b s
  induction n, b, s using sqzF.induct P with
  | case1 b l => intro c h; exact h
  | case2 n b =>
    intro c h
    rw [show sqzF P (n + 1) b [] = [] from by cases b <;> rfl] at h
    exact h
  | case3 n c0 rest hws ih =>
    intro c h
    simp only [sqzF, hws, if_true] at h
    exact List.mem_cons_of_mem _ (ih c h)
  | case4 n c0 rest hws hP ih =>
    intro c h
    simp only [sqzF, hws, hP] at h
    rcases List.mem_cons.mp h with h | h
    · simp [h]
    · exact List.mem_cons_of_mem _ (ih c h)
  | case5 n c0 rest hws hP ih =>
    intro c h
    simp only [sqzF, hws, hP] at h
    rcases List.mem_cons.mp h with h | h
    · simp [h]
    · exact List.mem_cons_of_mem _ (ih c h)
  | case6 n c0 rest hP ih =>
    intro c h
    simp only [sqzF, hP, if_true] at h
    rcases List.mem_cons.mp h with h | h
    · simp [h]
    · exact List.mem_cons_of_mem _ (ih c h)
  | case7 n c0 rest hP hws hlead ih =>
    intro c h
    simp only [sqzF, hP, hws, hlead, if_true] at h
    exact (List.dropWhile_sublist isWs).mem (ih c h)
  | case8 n c0 rest hP hws hlead ih =>
    intro c h
    simp only [sqzF, hP, hws, hlead] at h
    rcases List.mem_cons.mp h with h | h
    · simp [h]
    · exact List.mem_cons_of_mem _ (ih c h)
  | case9 n c0 rest hP hws ih =>
    intro c h
    simp only [sqzF, hP, hws] at h
    rcases List.mem_cons.mp h with h | h
    · simp [h]
    · exact List.mem_cons_of_mem _ (ih c h)

/-- A successful `expectChars` leaves a suffix. -/
theorem expectChars_suffix {ps l r : Str} (h : expectChars ps l = some r) : r <:+ l :=
  ⟨ps, (expectChars_append h).symm⟩

/-- A successful `expectQuote` leaves a suffix. -/
theorem expectQuote_suffix {l r : Str} (h : expectQuote l = some r) : r <:+ l := by
  cases l with
  | nil => simp [expectQuote] at h
  | cons c t =>
    simp only [expectQuote] at h
    split at h
    · simp only [Option.some_inj] at h
      exact h ▸ ⟨[c], rfl⟩
    · simp at h

/-- `skipWs` leaves a suffix. -/
theorem skipWs_suffix (l : Str) : skipWs l <:+ l := List.dropWhile_suffix isWs

/-- A successful placeholder match leaves a suffix of the input. -/
theorem matchVar_suffix {l r : Str} (h : matchVar l = some r) : r <:+ l := by
  unfold matchVar at h
  simp only [Option.bind_eq_some] at h
  obtain ⟨r1, h1, r2, h2, r3, h3, r3q, h3q, r3e, h3e, r4, h4, r5, h5, h6⟩ := h
  have s1 := (expectChars_suffix h1)
  have s2 := (expectChars_suffix h2).trans (skipWs_suffix r1)
  have s3 := (expectChars_suffix h3).trans (skipWs_suffix r2)
  have s3q := (expectQuote_suffix h3q).trans (skipWs_suffix r3)
  have s3e := expectChars_suffix h3e
  have s4 := expectQuote_suffix h4
  have s5 := (expectChars_suffix h5).trans (skipWs_suffix r4)
  have s6 := (expectChars_suffix h6).trans (skipWs_suffix r5)
  exact (((((((s6.trans s5).trans s4).trans s3e).trans s3q).trans s3).trans s2).trans s1)

/-- The placeholder scanner keeps only input characters and the inserted
replacement `SIT`. -/
theorem substVarF_mem :
    ∀ (n : Nat) (s : Str) (c : Char), c ∈ substVarF n s →
      c ∈ s ∨ c = 'S' ∨ c = 'I' ∨ c = 'T' := by
  intro n s
  induction n, s using substVarF.induct with
  | case1 l => intro c h; exact Or.inl h
  | case2 n => intro c h; exact Or.inl h
  | case3 n c0 rest r hm ih =>
    intro c h
    simp only [substVarF, hm] at h
    rcases List.mem_cons.mp h with h | h
    · exact Or.inr (Or.inl h)
    rcases List.mem_cons.mp h with h | h
    · exact Or.inr (Or.inr (Or.inl h))
    rcases List.mem_cons.mp h with h | h
    · exact Or.inr (Or.inr (Or.inr h))
    rcases ih c h with h | h
    · exact Or.inl ((matchVar_suffix hm).sublist.mem h)
    · exact Or.inr h
  | case4 n c0 rest hm ih =>
    intro c h
    simp only [substVarF, hm] at h
    rcases List.mem_cons.mp h with h | h
    · simp [h]
    rcases ih c h with h | h
    · exact Or.inl (List.mem_cons_of_mem _ h)
    · exact Or.inr h

/-- A successful `IDENTIFIER` match returns pieces of the input. -/
theorem matchIdent_parts {q : Char} {l inner rest3 : Str}
    (h : matchIdent q l = some (inner, rest3)) :
    (∀ c ∈ inner, c ∈ l) ∧ (∀ c ∈ rest3, c ∈ l) := by
  unfold matchIdent at h
  simp only [Option.bind_eq_some] at h
  obtain ⟨rest, h1, h2⟩ := h
  have hsub : ∀ c ∈ rest, c ∈ l := by
    intro c hc
    rw [expectChars_append h1]
    exact List.mem_append_right _ hc
  split at h2
  · rename_i c1 c2 r3 heq
    split at h2
    · simp only [Option.some_inj, Prod.mk.injEq] at h2
      obtain ⟨hi, hr⟩ := h2
      constructor
      · intro c hc
        rw [← hi] at hc
        exact hsub c ((List.takeWhile_sublist _).mem hc)
      · intro c hc
        rw [← hr] at hc
        have : c ∈ List.dropWhile (fun d => !decide (d = q)) rest := by
          rw [heq]
          exact List.mem_cons_of_mem _ (List.mem_cons_of_mem _ hc)
        exact hsub c ((List.dropWhile_sublist _).mem this)
    · simp at h2
  · simp at h2

/-- The `IDENTIFIER` scanner keeps only input characters. -/
theorem unwrapIdentF_mem (q : Char) :
    ∀ (n : Nat) (s : Str) (c : Char), c ∈ unwrapIdentF q n s → c ∈ s := by
  intro n s
  induction n, s using unwrapIdentF.induct q with
  | case1 l => intro c h; exact h
  | case2 n => intro c h; exact h
  | case3 n c0 rest inner rest3 hm ih =>
    intro c h
    simp only [unwrapIdentF, hm] at h
    rcases List.mem_append.mp h with h | h
    · exact (matchIdent_parts hm).1 c h
    · exact (matchIdent_parts hm).2 c (ih c h)
  | case4 n c0 rest hm ih =>
    intro c h
    simp only [unwrapIdentF, hm] at h
    rcases List.mem_cons.mp h with h | h
    · simp [h]
    · exact List.mem_cons_of_mem _ (ih c h)

/-- Unfolding equation for the quote-stripping scanner on a cons cell. -/
theorem stripQF_cons_eq (q : Char) (n : Nat) (c0 : Char) (rest : Str) :
    stripQF q (n + 1) (c0 :: rest) =
      if c0 = q then
        (match List.dropWhile (fun d => !decide (d = q)) rest with
         | _ :: rest2 =>
           if List.takeWhile (fun d => !decide (d = q)) rest = [] then
             c0 :: stripQF q n rest
           else List.takeWhile (fun d => !decide (d = q)) rest ++ stripQF q n rest2
         | [] => c0 :: stripQF q n rest)
      else c0 :: stripQF q n rest := rfl

/-- The quote-stripping scanner keeps only input characters. -/
theorem stripQF_mem (q : Char) :
    ∀ (n : Nat) (s : Str) (c : Char), c ∈ stripQF q n s → c ∈ s := by
  intro n
  induction n with
  | zero => intro s c h; exact h
  | succ n ih =>
    intro s c h
    match s with
    | [] => exact h
    | c0 :: rest =>
      rw [stripQF_cons_eq] at h
      split at h
      · split at h
        · rename_i x rest2 heq
          split at h
          · rcases List.mem_cons.mp h with h | h
            · simp [h]
            · exact List.mem_cons_of_mem _ (ih rest c h)
          · rcases List.mem_append.mp h with h | h
            · exact List.mem_cons_of_mem _ ((List.takeWhile_sublist _).mem h)
            · have hmem : c ∈ List.dropWhile (fun d => !decide (d = q)) rest := by
                rw [heq]; exact List.mem_cons_of_mem _ (ih rest2 c h)
              exact List.mem_cons_of_mem _ ((List.dropWhile_sublist _).mem hmem)
        · rcases List.mem_cons.mp h with h | h
          · simp [h]
          · exact List.mem_cons_of_mem _ (ih rest c h)
      · rcases List.mem_cons.mp h with h | h
        · simp [h]
        · exact List.mem_cons_of_mem _ (ih rest c h)

/-- A successful placeholder match consumes at least the opening braces. -/
theorem matchVar_length {l r : Str} (h : matchVar l = some r) : r.length < l.length := by
  unfold matchVar at h
  simp only [Option.bind_eq_some] at h
  obtain ⟨r1, h1, r2, h2, r3, h3, r3q, h3q, r3e, h3e, r4, h4, r5, h5, h6⟩ := h
  have s2 := (expectChars_suffix h2).trans (skipWs_suffix r1)
  have s3 := (expectChars_suffix h3).trans (skipWs_suffix r2)
  have s3q := (expectQuote_suffix h3q).trans (skipWs_suffix r3)
  have s3e := expectChars_suffix h3e
  have s4 := expectQuote_suffix h4
  have s5 := (expectChars_suffix h5).trans (skipWs_suffix r4)
  have s6 := (expectChars_suffix h6).trans (skipWs_suffix r5)
  have hr1 : r.length ≤ r1.length :=
    ((((((s6.trans s5).trans s4).trans s3e).trans s3q).trans s3).trans s2).length_le
  have hl : l = [lbrace, lbrace] ++ r1 := expectChars_append h1
  rw [hl]
  simp only [List.length_append, List.length_cons]
  omega

/-- Stripping a trailing semicolon yields a prefix of the input. -/
theorem stripTrailingSemi_prefix (l : Str) : stripTrailingSemi l <+: l := by
  unfold stripTrailingSemi
  split
  · rename_i c rest hd
    split
    · obtain ⟨u, hu⟩ := (List.dropWhile_suffix isWs : _ <:+ l.reverse)
      rw [hd] at hu
      exact ⟨[c] ++ u.reverse, by rw [← List.reverse_reverse l, ← hu]; simp⟩
    · exact List.prefix_refl l
  · exact List.prefix_refl l

/-- `strip` yields an infix of the input. -/
theorem stripList_infix_self (s : Str) : stripList s <:+: s := by
  unfold stripList
  obtain ⟨u, hu⟩ := (List.dropWhile_suffix isWs : _ <:+ s)
  obtain ⟨v, hv⟩ := (List.dropWhile_suffix isWs : _ <:+ (s.dropWhile isWs).reverse)
  have ha : ((s.dropWhile isWs).reverse.dropWhile isWs).reverse ++ v.reverse
      = s.dropWhile isWs := by
    rw [← List.reverse_append, hv, List.reverse_reverse]
  exact ⟨u, v.reverse, by rw [List.append_assoc, ha, hu]⟩

/-- The placeholder scanner ignores the exact fuel once it covers the input. -/
theorem substVarF_fuel : ∀ (k : Nat) (l : Str), l.length ≤ k →
    ∀ (n m : Nat), l.length ≤ n → l.length ≤ m → substVarF n l = substVarF m l := by
  intro k
  induction k with
  | zero =>
    intro l hl n m _ _
    have : l = [] := List.length_eq_zero.mp (Nat.le_zero.mp hl)
    subst this
    cases n <;> cases m <;> rfl
  | succ k ih =>
    intro l hl n m hn hm2
    match l with
    | [] => cases n <;> cases m <;> rfl
    | c :: rest =>
      simp only [List.length_cons] at hl hn hm2
      cases n with
      | zero => omega
      | succ n1 =>
        cases m with
        | zero => omega
        | succ m1 =>
          cases hmv : matchVar (c :: rest) with
          | some r =>
            have hr := matchVar_length hmv
            simp only [List.length_cons] at hr
            simp only [substVarF, hmv]
            rw [ih r (by omega) n1 m1 (by omega) (by omega)]
          | none =>
            simp only [substVarF, hmv]
            rw [ih rest (by omega) n1 m1 (by omega) (by omega)]

/-- `substVar` on the empty string. -/
theorem substVar_nil : substVar [] = [] := rfl

/-- `substVar` when the placeholder pattern matches at the head. -/
theorem substVar_cons_some {c : Char} {rest r : Str}
    (h : matchVar (c :: rest) = some r) :
    substVar (c :: rest) = 'S' :: 'I' :: 'T' :: substVar r := by
  have hr := matchVar_length h
  simp only [List.length_cons] at hr
  unfold substVar
  rw [show (c :: rest).length = rest.length + 1 from rfl]
  simp only [substVarF, h]
  rw [substVarF_fuel r.length r (Nat.le_refl _) rest.length r.length (by omega) (Nat.le_refl _)]

/-- `substVar` when the placeholder pattern does not match at the head. -/
theorem substVar_cons_none {c : Char} {rest : Str}
    (h : matchVar (c :: rest) = none) :
    substVar (c :: rest) = c :: substVar rest := by
  unfold substVar
  rw [show (c :: rest).length = rest.length + 1 from rfl]
  simp only [substVarF, h]

/-- The placeholder never matches the empty string. -/
theorem matchVar_nil : matchVar [] = none := rfl

/-- The placeholder only matches at an opening brace. -/
theorem matchVar_eq_none {c : Char} {t : Str} (hc : ¬c = lbrace) :
    matchVar (c :: t) = none := by
  unfold matchVar
  rw [show expectChars [lbrace, lbrace] (c :: t) = none from by
    simp [expectChars, hc]]
  rfl

/-- The head surviving `dropWhile p` does not satisfy `p`. -/
theorem dropWhile_head_not (p : Char → Bool) :
    ∀ (l : Str) (d : Char), (l.dropWhile p).head? = some d → p d = false := by
  intro l
  induction l with
  | nil => intro d h; simp at h
  | cons a t ih =>
    intro d h
    rw [List.dropWhile_cons] at h
    split at h
    · exact ih d h
    · rename_i ha
      simp only [List.head?_cons, Option.some_inj] at h
      subst h
      simpa using ha

/-- `dropWhile` is idempotent. -/
theorem dropWhile_dropWhile (p : Char → Bool) (l : Str) :
    (l.dropWhile p).dropWhile p = l.dropWhile p := by
  cases h : l.dropWhile p with
  | nil => rfl
  | cons d t =>
    have hd : p d = false := dropWhile_head_not p l d (by rw [h]; rfl)
    rw [List.dropWhile_cons, if_neg (by simp [hd])]

/-- A list whose head fails `p` is fixed by `dropWhile p`. -/
theorem dropWhile_eq_self_of_head {p : Char → Bool} {l : Str}
    (h : ∀ d, l.head? = some d → p d = false) : l.dropWhile p = l := by
  cases l with
  | nil => rfl
  | cons a t =>
    rw [List.dropWhile_cons, if_neg (by simp [h a rfl])]

/-- The getLast of a nonempty suffix is the getLast of the whole list. -/
theorem getLast?_of_suffix {b r : Str} (hs : b <:+ r) (hb : b ≠ []) :
    b.getLast? = r.getLast? := by
  obtain ⟨u, hu⟩ := hs
  rw [← hu, List.getLast?_append]
  cases h : b.getLast? with
  | none => exact absurd (List.getLast?_eq_none_iff.mp h) hb
  | some x => rfl

/-- The output of `strip` is fixed by `strip`: it has no leading and no
trailing whitespace. -/
theorem stripList_stripFixed (s : Str) : StripFixed (stripList s) := by
  constructor
  · apply dropWhile_eq_self_of_head
    intro d hd
    unfold stripList at hd
    rw [List.head?_reverse] at hd
    cases hb : (s.dropWhile isWs).reverse.dropWhile isWs with
    | nil => rw [hb] at hd; simp at hd
    | cons x t =>
      have hsuf : (s.dropWhile isWs).reverse.dropWhile isWs <:+ (s.dropWhile isWs).reverse :=
        List.dropWhile_suffix isWs
      rw [getLast?_of_suffix hsuf (by rw [hb]; simp), List.getLast?_reverse] at hd
      exact dropWhile_head_not isWs s d hd
  · unfold stripList
    rw [List.reverse_reverse]
    exact dropWhile_dropWhile isWs _

/-! Head characterization of the scanners, used to control the new adjacent
pairs each pass can create. -/

/-- In skip-mode the collapse scanner starts at the first non-whitespace. -/
theorem hd_clps_true : ∀ t : Str, (clps true t).head? = (t.dropWhile isWs).head? := by
  intro t
  induction t with
  | nil => rfl
  | cons c rest ih =>
    by_cases h : isWs c = true
    · simp only [clps, h, if_true, List.dropWhile_cons]
      exact ih
    · simp only [clps, List.dropWhile_cons]
      rw [if_neg h, if_neg h]
      rfl

/-- In copy-mode the collapse scanner keeps the head or emits a space. -/
theorem hd_clps_false (t : Str) :
    (clps false t).head? = t.head? ∨ (clps false t).head? = some ' ' := by
  cases t with
  | nil => exact Or.inl rfl
  | cons c rest =>
    by_cases h : isWs c = true
    · simp only [clps, h, if_true]
      exact Or.inr rfl
    · simp only [clps]
      rw [if_neg h]
      exact Or.inl rfl

/-- The collapse scanner establishes the no-adjacent-whitespace form. -/
theorem clps_noAdjWs : ∀ (b : Bool) (t : Str), pairsOK noAdjWs (clps b t) = true := by
  intro b t
  induction b, t using clps.induct with
  | case1 b => rw [show clps b [] = [] from by cases b <;> rfl]; rfl
  | case2 c0 rest hws ih => simp only [clps, hws, if_true]; exact ih
  | case3 c0 rest hws ih =>
    simp only [clps]
    rw [if_neg hws]
    refine pairsOK_cons (fun d _ => ?_) ih
    have hc : isWs c0 = false := by simpa using hws
    simp [noAdjWs, hc]
  | case4 c0 rest hws ih =>
    simp only [clps, hws, if_true]
    refine pairsOK_cons (fun d hd => ?_) ih
    rw [hd_clps_true] at hd
    have hw := dropWhile_head_not isWs rest d hd
    simp [noAdjWs, hw]
  | case5 c0 rest hws ih =>
    simp only [clps]
    rw [if_neg hws]
    refine pairsOK_cons (fun d _ => ?_) ih
    have hc : isWs c0 = false := by simpa using hws
    simp [noAdjWs, hc]

/-- Every whitespace character the collapse scanner outputs is a space. -/
theorem clps_wsSpace (b : Bool) (t : Str) : WsSpace (clps b t) := by
  intro c hc hws
  rcases clps_mem b t c hc with ⟨-, hnw⟩ | h
  · rw [hws] at hnw; cases hnw
  · exact h

/-- The collapse scanner preserves any pair-property compatible with spaces. -/
theorem clps_pres {R : Char → Char → Bool}
    (hR : ∀ x, R x ' ' = true ∧ R ' ' x = true) :
    ∀ (b : Bool) (t : Str), pairsOK R t = true → pairsOK R (clps b t) = true := by
  intro b t
  induction b, t using clps.induct with
  | case1 b => intro _; rw [show clps b [] = [] from by cases b <;> rfl]; rfl
  | case2 c0 rest hws ih =>
    intro hp
    simp only [clps, hws, if_true]
    exact ih (pairsOK_tail hp)
  | case3 c0 rest hws ih =>
    intro hp
    simp only [clps]
    rw [if_neg hws]
    refine pairsOK_cons (fun d hd => ?_) (ih (pairsOK_tail hp))
    rcases hd_clps_false rest with he | he
    · rw [he] at hd
      cases rest with
      | nil => simp at hd
      | cons e t2 =>
        simp only [List.head?_cons, Option.some_inj] at hd
        rw [← hd]
        exact pairsOK_head hp
    · rw [he] at hd
      simp only [Option.some_inj] at hd
      rw [← hd]
      exact (hR c0).1
  | case4 c0 rest hws ih =>
    intro hp
    simp only [clps, hws, if_true]
    exact pairsOK_cons (fun d _ => (hR d).2) (ih (pairsOK_tail hp))
  | case5 c0 rest hws ih =>
    intro hp
    simp only [clps]
    rw [if_neg hws]
    refine pairsOK_cons (fun d hd => ?_) (ih (pairsOK_tail hp))
    rcases hd_clps_false rest with he | he
    · rw [he] at hd
      cases rest with
      | nil => simp at hd
      | cons e t2 =>
        simp only [List.head?_cons, Option.some_inj] at hd
        rw [← hd]
        exact pairsOK_head hp
    · rw [he] at hd
      simp only [Option.some_inj] at hd
      rw [← hd]
      exact (hR c0).1

/-- In comment-mode the comment scanner resumes at a newline, if at all. -/
theorem hd_rmC_true : ∀ t : Str,
    (rmC true t).head? = some '\n' ∨ (rmC true t).head? = none := by
  intro t
  induction t with
  | nil => exact Or.inr rfl
  | cons c rest ih =>
    by_cases h : c = '\n'
    · subst h
      simp only [rmC, if_pos rfl]
      exact Or.inl rfl
    · simp only [rmC]
      rw [if_neg h]
      exact ih

/-- Unfolding equation for the comment scanner on two characters. -/
theorem rmC_cons₂ (c d : Char) (rest2 : Str) :
    rmC false (c :: d :: rest2) =
      if c = '-' ∧ d = '-' then rmC true rest2
      else c :: rmC false (d :: rest2) := rfl

/-- In copy-mode the comment scanner keeps the head, resumes at a newline, or
ends. -/
theorem hd_rmC_false (t : Str) :
    (rmC false t).head? = t.head? ∨ (rmC false t).head? = some '\n' ∨
      (rmC false t).head? = none := by
  match t with
  | [] => exact Or.inl rfl
  | [c] => exact Or.inl rfl
  | c :: d :: rest2 =>
    rw [rmC_cons₂]
    by_cases hdd : c = '-' ∧ d = '-'
    · rw [if_pos hdd]
      exact Or.inr (hd_rmC_true rest2)
    · rw [if_neg hdd]
      exact Or.inl rfl

/-- The comment scanner establishes the no-double-dash form. -/
theorem rmC_noDD : ∀ (b : Bool) (s : Str), pairsOK noDD (rmC b s) = true := by
  intro b s
  induction b, s using rmC.induct with
  | case1 x => rw [show rmC x [] = [] from by cases x <;> rfl]; rfl
  | case2 rest ih =>
    simp only [rmC, if_pos rfl]
    refine pairsOK_cons (fun d _ => ?_) ih
    simp [noDD]
  | case3 c rest h ih =>
    simp only [rmC]
    rw [if_neg h]
    exact ih
  | case4 c => rfl
  | case5 c d rest2 hdd ih =>
    rw [rmC_cons₂, if_pos hdd]
    exact ih
  | case6 c d rest2 hne ih =>
    rw [rmC_cons₂, if_neg hne]
    refine pairsOK_cons (fun x hx => ?_) ih
    rcases hd_rmC_false (d :: rest2) with he | he | he
    · rw [he] at hx
      simp only [List.head?_cons, Option.some_inj] at hx
      subst hx
      rcases not_and_or.mp hne with hc | hd2
      · simp [noDD, hc]
      · simp [noDD, hd2]
    · rw [he] at hx
      simp only [Option.some_inj] at hx
      subst hx
      simp [noDD]
    · rw [he] at hx
      cases hx

/-- Unfolding equation for the squeezing scanner in drop-mode. -/
theorem sqzF_cons_true (P : Char → Bool) (n : Nat) (c : Char) (rest : Str) :
    sqzF P (n + 1) true (c :: rest) =
      if isWs c then sqzF P n true rest
      else if P c then c :: sqzF P n true rest
      else c :: sqzF P n false rest := rfl

/-- Unfolding equation for the squeezing scanner in copy-mode. -/
theorem sqzF_cons_false (P : Char → Bool) (n : Nat) (c : Char) (rest : Str) :
    sqzF P (n + 1) false (c :: rest) =
      if P c then c :: sqzF P n true rest
      else if isWs c then
        (if wsLeadsTo P (c :: rest) then sqzF P n false ((c :: rest).dropWhile isWs)
         else c :: sqzF P n false rest)
      else c :: sqzF P n false rest := rfl

/-- In drop-mode the squeezing scanner starts at the first non-whitespace. -/
theorem hd_sqzF_true (P : Char → Bool) :
    ∀ (n : Nat) (t : Str), t.length ≤ n →
      (sqzF P n true t).head? = (t.dropWhile isWs).head? := by
  intro n
  induction n with
  | zero =>
    intro t hl
    have : t = [] := List.length_eq_zero.mp (Nat.le_zero.mp hl)
    subst this
    rfl
  | succ n ih =>
    intro t hl
    match t with
    | [] => rfl
    | c :: rest =>
      simp only [List.length_cons] at hl
      rw [sqzF_cons_true, List.dropWhile_cons]
      by_cases hws : isWs c = true
      · rw [if_pos hws, if_pos hws]
        exact ih rest (by omega)
      · rw [if_neg hws, if_neg hws]
        split <;> rfl

/-- In copy-mode the squeezing scanner keeps the head or jumps to a
`P`-character heading the first whitespace run. -/
theorem hd_sqzF_false (P : Char → Bool) :
    ∀ (n : Nat) (t : Str), t.length ≤ n →
      (sqzF P n false t).head? = t.head? ∨
      ∃ d, P d = true ∧ (sqzF P n false t).head? = some d ∧
        (t.dropWhile isWs).head? = some d := by
  intro n
  induction n with
  | zero =>
    intro t hl
    have : t = [] := List.length_eq_zero.mp (Nat.le_zero.mp hl)
    subst this
    exact Or.inl rfl
  | succ n ih =>
    intro t hl
    match t with
    | [] => exact Or.inl rfl
    | c :: rest =>
      simp only [List.length_cons] at hl
      rw [sqzF_cons_false]
      by_cases hPc : P c = true
      · rw [if_pos hPc]
        exact Or.inl rfl
      · rw [if_neg hPc]
        by_cases hws : isWs c = true
        · rw [if_pos hws]
          by_cases hld : wsLeadsTo P (c :: rest) = true
          · rw [if_pos hld]
            cases hdw : (c :: rest).dropWhile isWs with
            | nil =>
              exfalso
              unfold wsLeadsTo at hld
              rw [hdw] at hld
              simp at hld
            | cons d u =>
              have hPd : P d = true := by
                unfold wsLeadsTo at hld
                rw [hdw] at hld
                simpa using hld
              have hlen : (d :: u).length ≤ n := by
                have h1 : ((c :: rest).dropWhile isWs).length ≤ rest.length := by
                  rw [List.dropWhile_cons, if_pos hws]
                  exact dropWhile_len_le isWs rest
                rw [hdw] at h1
                simp only [List.length_cons] at h1 ⊢
                omega
              cases n with
              | zero => simp only [List.length_cons] at hlen; omega
              | succ n1 =>
                rw [sqzF_cons_false, if_pos hPd]
                exact Or.inr ⟨d, hPd, rfl, rfl⟩
          · rw [if_neg hld]
            exact Or.inl rfl
        · rw [if_neg hws]
          exact Or.inl rfl

/-- A whitespace run heading at a `P`-character makes `wsLeadsTo` true. -/
theorem wsLeadsTo_of_head {P : Char → Bool} {c d : Char} {rest : Str}
    (hws : isWs c = true) (hd : (rest.dropWhile isWs).head? = some d)
    (hPd : P d = true) : wsLeadsTo P (c :: rest) = true := by
  unfold wsLeadsTo
  rw [List.dropWhile_cons, if_pos hws]
  cases he : rest.dropWhile isWs with
  | nil => rw [he] at hd; cases hd
  | cons x u =>
    rw [he] at hd
    simp only [List.head?_cons, Option.some_inj] at hd
    subst hd
    exact hPd

/-- If a kept whitespace run does not lead to a `P`-character, the next
character is not in `P`. -/
theorem head_not_P_of_not_lead {P : Char → Bool}
    (hP : ∀ x, P x = true → isWs x = false) {c d : Char} {rest : Str}
    (hws : isWs c = true) (hld : ¬wsLeadsTo P (c :: rest) = true)
    (hd : rest.head? = some d) : P d = false := by
  by_cases hPd : P d = true
  · exfalso
    apply hld
    apply wsLeadsTo_of_head hws _ hPd
    cases rest with
    | nil => cases hd
    | cons e u =>
      simp only [List.head?_cons, Option.some_inj] at hd
      have hPe : P e = true := by rw [hd]; exact hPd
      rw [List.dropWhile_cons, if_neg (by simp [hP e hPe])]
      simp [hd]
  · simpa using hPd

/-- The squeezing scanner establishes the no-whitespace-adjacent-to-`P` form. -/
theorem sqzF_estab (P : Char → Bool) (hP : ∀ x, P x = true → isWs x = false) :
    ∀ (n : Nat) (b : Bool) (t : Str), t.length ≤ n →
      pairsOK (noWsAdjB P) (sqzF P n b t) = true := by
  intro n b t
  induction n, b, t using sqzF.induct P with
  | case1 b l =>
    intro hl
    have : l = [] := List.length_eq_zero.mp (Nat.le_zero.mp hl)
    subst this
    rfl
  | case2 n b =>
    intro _
    rw [show sqzF P (n + 1) b [] = [] from by cases b <;> rfl]
    rfl
  | case3 n c0 rest hws ih =>
    intro hl
    simp only [List.length_cons] at hl
    simp only [sqzF, hws, if_true]
    exact ih (by omega)
  | case4 n c0 rest hws hP0 ih =>
    intro hl
    simp only [List.length_cons] at hl
    simp only [sqzF, hws, hP0]
    refine pairsOK_cons (fun d hd => ?_) (ih (by omega))
    rw [hd_sqzF_true P n rest (by omega)] at hd
    have hwd := dropWhile_head_not isWs rest d hd
    have hwc : isWs c0 = false := by simpa using hws
    simp [noWsAdjB, hwd, hwc]
  | case5 n c0 rest hws hP0 ih =>
    intro hl
    simp only [List.length_cons] at hl
    simp only [sqzF, hws, hP0]
    refine pairsOK_cons (fun d _ => ?_) (ih (by omega))
    have hwc : isWs c0 = false := by simpa using hws
    have hPc : P c0 = false := by simpa using hP0
    simp [noWsAdjB, hwc, hPc]
  | case6 n c0 rest hP0 ih =>
    intro hl
    simp only [List.length_cons] at hl
    simp only [sqzF, hP0, if_true]
    refine pairsOK_cons (fun d hd => ?_) (ih (by omega))
    rw [hd_sqzF_true P n rest (by omega)] at hd
    have hwd := dropWhile_head_not isWs rest d hd
    have hwc : isWs c0 = false := hP c0 hP0
    simp [noWsAdjB, hwd, hwc]
  | case7 n c0 rest hP0 hws hld ih =>
    intro hl
    simp only [List.length_cons] at hl
    simp only [sqzF, hP0, hws, hld, if_true]
    refine ih ?_
    rw [List.dropWhile_cons, if_pos hws]
    exact le_trans (dropWhile_len_le isWs rest) (by omega)
  | case8 n c0 rest hP0 hws hld ih =>
    intro hl
    simp only [List.length_cons] at hl
    simp only [sqzF, hP0, hws, hld]
    refine pairsOK_cons (fun d hd => ?_) (ih (by omega))
    rcases hd_sqzF_false P n rest (by omega) with he | ⟨e, hPe, hh, hdw⟩
    · rw [he] at hd
      have hPd : P d = false := head_not_P_of_not_lead hP hws hld hd
      have hPc : P c0 = false := by simpa using hP0
      simp [noWsAdjB, hPd, hPc]
    · exact absurd (wsLeadsTo_of_head hws hdw hPe) hld
  | case9 n c0 rest hP0 hws ih =>
    intro hl
    simp only [List.length_cons] at hl
    simp only [sqzF, hP0, hws]
    refine pairsOK_cons (fun d _ => ?_) (ih (by omega))
    have hwc : isWs c0 = false := by simpa using hws
    have hPc : P c0 = false := by simpa using hP0
    simp [noWsAdjB, hwc, hPc]

/-- The squeezing scanner preserves any pair-property whose right or left
partner may become a `P`-character across removed whitespace. -/
theorem sqzF_pairs (P : Char → Bool)
    {R : Char → Char → Bool}
    (hR : ∀ x p, P p = true → isWs x = false → R x p = true ∧ R p x = true) :
    ∀ (n : Nat) (b : Bool) (t : Str), t.length ≤ n → pairsOK R t = true →
      pairsOK R (sqzF P n b t) = true := by
  intro n b t
  induction n, b, t using sqzF.induct P with
  | case1 b l => intro _ hp; exact hp
  | case2 n b =>
    intro _ _
    rw [show sqzF P (n + 1) b [] = [] from by cases b <;> rfl]
    rfl
  | case3 n c0 rest hws ih =>
    intro hl hp
    simp only [List.length_cons] at hl
    simp only [sqzF, hws, if_true]
    exact ih (by omega) (pairsOK_tail hp)
  | case4 n c0 rest hws hP0 ih =>
    intro hl hp
    simp only [List.length_cons] at hl
    simp only [sqzF, hws, hP0]
    refine pairsOK_cons (fun d hd => ?_) (ih (by omega) (pairsOK_tail hp))
    rw [hd_sqzF_true P n rest (by omega)] at hd
    have hwd := dropWhile_head_not isWs rest d hd
    exact (hR d c0 hP0 hwd).2
  | case5 n c0 rest hws hP0 ih =>
    intro hl hp
    simp only [List.length_cons] at hl
    simp only [sqzF, hws, hP0]
    refine pairsOK_cons (fun d hd => ?_) (ih (by omega) (pairsOK_tail hp))
    rcases hd_sqzF_false P n rest (by omega) with he | ⟨e, hPe, hh, hdw⟩
    · rw [he] at hd
      cases rest with
      | nil => cases hd
      | cons e u =>
        simp only [List.head?_cons, Option.some_inj] at hd
        subst hd
        exact pairsOK_head hp
    · rw [hh] at hd
      simp only [Option.some_inj] at hd
      rw [hd] at hPe
      have hwc : isWs c0 = false := by simpa using hws
      exact (hR c0 d hPe hwc).1
  | case6 n c0 rest hP0 ih =>
    intro hl hp
    simp only [List.length_cons] at hl
    simp only [sqzF, hP0, if_true]
    refine pairsOK_cons (fun d hd => ?_) (ih (by omega) (pairsOK_tail hp))
    rw [hd_sqzF_true P n rest (by omega)] at hd
    have hwd := dropWhile_head_not isWs rest d hd
    exact (hR d c0 hP0 hwd).2
  | case7 n c0 rest hP0 hws hld ih =>
    intro hl hp
    simp only [List.length_cons] at hl
    simp only [sqzF, hP0, hws, hld, if_true]
    refine ih ?_ (pairsOK_of_suffix (List.dropWhile_suffix isWs) hp)
    rw [List.dropWhile_cons, if_pos hws]
    exact le_trans (dropWhile_len_le isWs rest) (by omega)
  | case8 n c0 rest hP0 hws hld ih =>
    intro hl hp
    simp only [List.length_cons] at hl
    simp only [sqzF, hP0, hws, hld]
    refine pairsOK_cons (fun d hd => ?_) (ih (by omega) (pairsOK_tail hp))
    rcases hd_sqzF_false P n rest (by omega) with he | ⟨e, hPe, hh, hdw⟩
    · rw [he] at hd
      cases rest with
      | nil => cases hd
      | cons e u =>
        simp only [List.head?_cons, Option.some_inj] at hd
        subst hd
        exact pairsOK_head hp
    · exact absurd (wsLeadsTo_of_head hws hdw hPe) hld
  | case9 n c0 rest hP0 hws ih =>
    intro hl hp
    simp only [List.length_cons] at hl
    simp only [sqzF, hP0, hws]
    refine pairsOK_cons (fun d hd => ?_) (ih (by omega) (pairsOK_tail hp))
    rcases hd_sqzF_false P n rest (by omega) with he | ⟨e, hPe, hh, hdw⟩
    · rw [he] at hd
      cases rest with
      | nil => cases hd
      | cons e u =>
        simp only [List.head?_cons, Option.some_inj] at hd
        subst hd
        exact pairsOK_head hp
    · rw [hh] at hd
      simp only [Option.some_inj] at hd
      rw [hd] at hPe
      have hwc : isWs c0 = false := by simpa using hws
      exact (hR c0 d hPe hwc).1

/-- The placeholder substitution keeps the head or starts the replacement. -/
theorem hd_substVar (t : Str) :
    (substVar t).head? = t.head? ∨ (substVar t).head? = some 'S' := by
  cases t with
  | nil => exact Or.inl rfl
  | cons c rest =>
    cases hm : matchVar (c :: rest) with
    | some r => rw [substVar_cons_some hm]; exact Or.inr rfl
    | none => rw [substVar_cons_none hm]; exact Or.inl rfl

/-- The placeholder substitution preserves any pair-property compatible with
the replacement text `SIT`. -/
theorem substVar_pairs {R : Char → Char → Bool}
    (hS : ∀ x, R x 'S' = true) (hT : ∀ x, R 'T' x = true)
    (hSI : R 'S' 'I' = true) (hIT : R 'I' 'T' = true) :
    ∀ t : Str, pairsOK R t = true → pairsOK R (substVar t) = true := by
  suffices H : ∀ (n : Nat) (t : Str), t.length ≤ n → pairsOK R t = true →
      pairsOK R (substVar t) = true from fun t => H t.length t (Nat.le_refl _)
  intro n
  induction n with
  | zero =>
    intro t hl hp
    have : t = [] := List.length_eq_zero.mp (Nat.le_zero.mp hl)
    subst this
    exact hp
  | succ n ih =>
    intro t hl hp
    match t with
    | [] => exact hp
    | c :: rest =>
      simp only [List.length_cons] at hl
      cases hm : matchVar (c :: rest) with
      | some r =>
        rw [substVar_cons_some hm]
        have hrl : r.length ≤ n := by
          have := matchVar_length hm
          simp only [List.length_cons] at this
          omega
        have hpr : pairsOK R r = true := pairsOK_of_suffix (matchVar_suffix hm) hp
        have h3 : pairsOK R ('T' :: substVar r) = true :=
          pairsOK_cons (fun d _ => hT d) (ih r hrl hpr)
        have h2 : pairsOK R ('I' :: 'T' :: substVar r) = true :=
          pairsOK_cons (fun d hd => by
            simp only [List.head?_cons, Option.some_inj] at hd
            rw [← hd]; exact hIT) h3
        exact pairsOK_cons (fun d hd => by
          simp only [List.head?_cons, Option.some_inj] at hd
          rw [← hd]; exact hSI) h2
      | none =>
        rw [substVar_cons_none hm]
        refine pairsOK_cons (fun d hd => ?_) (ih rest (by omega) (pairsOK_tail hp))
        rcases hd_substVar rest with he | he
        · rw [he] at hd
          cases rest with
          | nil => cases hd
          | cons e u =>
            simp only [List.head?_cons, Option.some_inj] at hd
            rw [← hd]
            exact pairsOK_head hp
        · rw [he] at hd
          simp only [Option.some_inj] at hd
          rw [← hd]
          exact hS c

/-! Extension lemmas: a successful pattern match extends to any longer input,
with the extra text appended to the remainder. -/

/-- Appending input extends a successful `expectChars`. -/
theorem expectChars_extend {ps l r u : Str} (h : expectChars ps l = some r) :
    expectChars ps (l ++ u) = some (r ++ u) := by
  induction ps generalizing l with
  | nil =>
    simp only [expectChars, Option.some_inj] at h ⊢
    rw [h]
  | cons p pt ih =>
    cases l with
    | nil => simp [expectChars] at h
    | cons c lt =>
      simp only [expectChars, List.cons_append] at h ⊢
      by_cases hc : c = p
      · rw [if_pos hc] at h ⊢
        exact ih h
      · rw [if_neg hc] at h
        cases h

/-- Appending input extends a successful `expectQuote`. -/
theorem expectQuote_extend {l r u : Str} (h : expectQuote l = some r) :
    expectQuote (l ++ u) = some (r ++ u) := by
  cases l with
  | nil => simp [expectQuote] at h
  | cons c lt =>
    simp only [expectQuote, List.cons_append] at h ⊢
    by_cases hq : isQuote c = true
    · rw [if_pos hq] at h ⊢
      simp only [Option.some_inj] at h ⊢
      rw [h]
    · rw [if_neg hq] at h
      cases h

/-- Appending input commutes with a whitespace skip that stops inside the
original input. -/
theorem skipWs_append {l u : Str} (h : skipWs l ≠ []) :
    skipWs (l ++ u) = skipWs l ++ u := by
  unfold skipWs at h ⊢
  rw [List.dropWhile_append, if_neg (by simp only [List.isEmpty_iff]; exact h)]

/-- Appending input extends a successful placeholder match. -/
theorem matchVar_extend {l r u : Str} (h : matchVar l = some r) :
    matchVar (l ++ u) = some (r ++ u) := by
  unfold matchVar at h ⊢
  simp only [Option.bind_eq_some] at h
  obtain ⟨r1, h1, r2, h2, r3, h3, r3q, h3q, r3e, h3e, r4, h4, r5, h5, h6⟩ := h
  have n1 : skipWs r1 ≠ [] := by intro he; rw [he] at h2; simp [expectChars] at h2
  have n2 : skipWs r2 ≠ [] := by intro he; rw [he] at h3; simp [expectChars] at h3
  have n3 : skipWs r3 ≠ [] := by intro he; rw [he] at h3q; simp [expectQuote] at h3q
  have n4 : skipWs r4 ≠ [] := by intro he; rw [he] at h5; simp [expectChars] at h5
  have n5 : skipWs r5 ≠ [] := by intro he; rw [he] at h6; simp [expectChars] at h6
  rw [expectChars_extend h1, Option.some_bind, skipWs_append n1, expectChars_extend h2,
    Option.some_bind, skipWs_append n2, expectChars_extend h3, Option.some_bind,
    skipWs_append n3, expectQuote_extend h3q, Option.some_bind, expectChars_extend h3e,
    Option.some_bind, expectQuote_extend h4, Option.some_bind, skipWs_append n4,
    expectChars_extend h5, Option.some_bind, skipWs_append n5, expectChars_extend h6]

/-- Freedom from placeholder matches restricts to a left part. -/
theorem varFree_append : ∀ {t u : Str}, varFree (t ++ u) = true → varFree t = true := by
  intro t
  induction t with
  | nil => intro u _; rfl
  | cons c t2 ih =>
    intro u h
    rw [List.cons_append] at h
    simp only [varFree, Bool.and_eq_true] at h ⊢
    obtain ⟨h1, h2⟩ := h
    refine ⟨?_, ih h2⟩
    cases hm : matchVar (c :: t2) with
    | none => rfl
    | some r =>
      exfalso
      have hx : matchVar ((c :: t2) ++ u) = some (r ++ u) := matchVar_extend hm
      rw [List.cons_append] at hx
      rw [hx] at h1
      simp at h1

/-- Freedom from placeholder matches restricts to a right part. -/
theorem varFree_append_right : ∀ (w t : Str), varFree (w ++ t) = true → varFree t = true := by
  intro w
  induction w with
  | nil => intro t h; exact h
  | cons c w2 ih =>
    intro t h
    rw [List.cons_append] at h
    simp only [varFree, Bool.and_eq_true] at h
    exact ih t h.2

/-- Freedom from placeholder matches survives `strip`. -/
theorem varFree_stripList {w : Str} (h : varFree w = true) :
    varFree (stripList w) = true := by
  have ha : varFree (w.dropWhile isWs) = true := by
    obtain ⟨u, hu⟩ := (List.dropWhile_suffix isWs : _ <:+ w)
    exact varFree_append_right u _ (by rw [hu]; exact h)
  have hsplit : w.dropWhile isWs =
      stripList w ++ ((w.dropWhile isWs).reverse.takeWhile isWs).reverse := by
    unfold stripList
    conv_lhs => rw [← List.reverse_reverse (w.dropWhile isWs),
      ← List.takeWhile_append_dropWhile isWs (w.dropWhile isWs).reverse]
    rw [List.reverse_append]
  rw [hsplit] at ha
  exact varFree_append ha

/-- Skipping whitespace commutes with the placeholder substitution. -/
theorem substVar_skipWs : ∀ l : Str, skipWs (substVar l) = substVar (skipWs l) := by
  suffices H : ∀ (n : Nat) (l : Str), l.length ≤ n →
      skipWs (substVar l) = substVar (skipWs l) from fun l => H l.length l (Nat.le_refl _)
  intro n
  induction n with
  | zero =>
    intro l hl
    have : l = [] := List.length_eq_zero.mp (Nat.le_zero.mp hl)
    subst this
    rfl
  | succ n ih =>
    intro l hl
    match l with
    | [] => rfl
    | c :: rest =>
      simp only [List.length_cons] at hl
      by_cases hws : isWs c = true
      · have hm : matchVar (c :: rest) = none := by
          refine matchVar_eq_none (fun he => ?_)
          rw [he] at hws
          exact absurd hws (by decide)
        rw [substVar_cons_none hm]
        unfold skipWs
        rw [List.dropWhile_cons, if_pos hws, List.dropWhile_cons, if_pos hws]
        exact ih rest (by omega)
      · cases hm : matchVar (c :: rest) with
        | some r =>
          rw [substVar_cons_some hm]
          unfold skipWs
          rw [List.dropWhile_cons, if_neg (by decide), List.dropWhile_cons, if_neg hws]
          rw [substVar_cons_some hm]
        | none =>
          rw [substVar_cons_none hm]
          unfold skipWs
          rw [List.dropWhile_cons, if_neg hws, List.dropWhile_cons, if_neg hws]
          rw [substVar_cons_none hm]

/-- Splitting the first character off an exact-sequence match. -/
theorem expectChars_cons (p : Char) (pt X : Str) :
    expectChars (p :: pt) X = (expectChars [p] X).bind (fun y => expectChars pt y) := by
  cases X with
  | nil => rfl
  | cons c xt =>
    by_cases hc : c = p
    · simp [expectChars, hc]
    · simp [expectChars, hc]

/-- The substituted text either fails a one-character match that the original
fails, or mirrors it. -/
theorem substVar_expectChar (a : Char) (ha : ¬a = 'S') (v : Str) :
    expectChars [a] (substVar v) = none ∨
    ∃ w, expectChars [a] v = some w ∧
      expectChars [a] (substVar v) = some (substVar w) := by
  cases v with
  | nil => exact Or.inl rfl
  | cons c rest =>
    cases hm : matchVar (c :: rest) with
    | some r =>
      rw [substVar_cons_some hm]
      refine Or.inl ?_
      simp only [expectChars]
      rw [if_neg (fun he => ha he.symm)]
    | none =>
      rw [substVar_cons_none hm]
      by_cases hc : c = a
      · exact Or.inr ⟨rest, by simp [expectChars, hc], by simp [expectChars, hc]⟩
      · refine Or.inl ?_
        simp only [expectChars]
        rw [if_neg hc]

/-- The substituted text either fails an exact-sequence match (not mentioning
`S`) that the original fails, or mirrors it. -/
theorem substVar_expectChars : ∀ (ps : Str), 'S' ∉ ps → ∀ v : Str,
    expectChars ps (substVar v) = none ∨
    ∃ w, expectChars ps v = some w ∧
      expectChars ps (substVar v) = some (substVar w) := by
  intro ps
  induction ps with
  | nil => intro _ v; exact Or.inr ⟨v, rfl, rfl⟩
  | cons p pt ih =>
    intro hps v
    have hp : ¬p = 'S' := fun he => hps (he ▸ List.mem_cons_self p pt)
    have hpt : 'S' ∉ pt := fun hmem => hps (List.mem_cons_of_mem p hmem)
    rcases substVar_expectChar p hp v with h | ⟨w, hw1, hw2⟩
    · rw [expectChars_cons, h]
      exact Or.inl rfl
    · rw [expectChars_cons, hw2, Option.some_bind]
      rcases ih hpt w with h2 | ⟨w2, hw21, hw22⟩
      · rw [h2]
        exact Or.inl rfl
      · rw [hw22]
        exact Or.inr ⟨w2, by rw [expectChars_cons, hw1, Option.some_bind, hw21], rfl⟩

/-- The substituted text either fails a quote match that the original fails,
or mirrors it. -/
theorem substVar_expectQuote (v : Str) :
    expectQuote (substVar v) = none ∨
    ∃ w, expectQuote v = some w ∧
      expectQuote (substVar v) = some (substVar w) := by
  cases v with
  | nil => exact Or.inl rfl
  | cons c rest =>
    cases hm : matchVar (c :: rest) with
    | some r =>
      rw [substVar_cons_some hm]
      refine Or.inl ?_
      simp only [expectQuote]
      rw [if_neg (by decide)]
    | none =>
      rw [substVar_cons_none hm]
      by_cases hq : isQuote c = true
      · exact Or.inr ⟨rest, by simp [expectQuote, hq], by simp [expectQuote, hq]⟩
      · refine Or.inl ?_
        simp only [expectQuote]
        rw [if_neg hq]

/-- If the placeholder does not match here, it still does not match after the
tail is substituted. -/
theorem matchVar_substVar {c : Char} {rest : Str} (h : matchVar (c :: rest) = none) :
    matchVar (c :: substVar rest) = none := by
  by_cases hc : c = lbrace
  · subst hc
    unfold matchVar at h ⊢
    rw [show expectChars [lbrace, lbrace] (lbrace :: substVar rest)
        = expectChars [lbrace] (substVar rest) from by simp [expectChars]]
    rw [show expectChars [lbrace, lbrace] (lbrace :: rest)
        = expectChars [lbrace] rest from by simp [expectChars]] at h
    rcases substVar_expectChar lbrace (by decide) rest with h1 | ⟨w1, hw11, hw12⟩
    · rw [h1]; rfl
    · rw [hw12, Option.some_bind]
      rw [hw11, Option.some_bind] at h
      rw [substVar_skipWs]
      rcases substVar_expectChars ['V', 'A', 'R'] (by decide) (skipWs w1)
        with h2 | ⟨w2, hw21, hw22⟩
      · rw [h2]; rfl
      · rw [hw22, Option.some_bind]
        rw [hw21, Option.some_bind] at h
        rw [substVar_skipWs]
        rcases substVar_expectChars ['('] (by decide) (skipWs w2)
          with h3 | ⟨w3, hw31, hw32⟩
        · rw [h3]; rfl
        · rw [hw32, Option.some_bind]
          rw [hw31, Option.some_bind] at h
          rw [substVar_skipWs]
          rcases substVar_expectQuote (skipWs w3) with h4 | ⟨w4, hw41, hw42⟩
          · rw [h4]; rfl
          · rw [hw42, Option.some_bind]
            rw [hw41, Option.some_bind] at h
            rcases substVar_expectChars ['E', 'N', 'V'] (by decide) w4
              with h5 | ⟨w5, hw51, hw52⟩
            · rw [h5]; rfl
            · rw [hw52, Option.some_bind]
              rw [hw51, Option.some_bind] at h
              rcases substVar_expectQuote w5 with h6 | ⟨w6, hw61, hw62⟩
              · rw [h6]; rfl
              · rw [hw62, Option.some_bind]
                rw [hw61, Option.some_bind] at h
                rw [substVar_skipWs]
                rcases substVar_expectChars [')'] (by decide) (skipWs w6)
                  with h7 | ⟨w7, hw71, hw72⟩
                · rw [h7]; rfl
                · rw [hw72, Option.some_bind]
                  rw [hw71, Option.some_bind] at h
                  rw [substVar_skipWs]
                  rcases substVar_expectChars [rbrace, rbrace] (by decide)
                    (skipWs w7) with h8 | ⟨w8, hw81, hw82⟩
                  · exact h8
                  · rw [hw81] at h
                    cases h
  · exact matchVar_eq_none hc

/-- The placeholder substitution leaves no placeholder occurrence behind. -/
theorem varFree_substVar : ∀ l : Str, varFree (substVar l) = true := by
  suffices H : ∀ (n : Nat) (l : Str), l.length ≤ n →
      varFree (substVar l) = true from fun l => H l.length l (Nat.le_refl _)
  intro n
  induction n with
  | zero =>
    intro l hl
    have : l = [] := List.length_eq_zero.mp (Nat.le_zero.mp hl)
    subst this
    rfl
  | succ n ih =>
    intro l hl
    match l with
    | [] => rfl
    | c :: rest =>
      simp only [List.length_cons] at hl
      cases hm : matchVar (c :: rest) with
      | some r =>
        rw [substVar_cons_some hm]
        have hrl : r.length ≤ n := by
          have := matchVar_length hm
          simp only [List.length_cons] at this
          omega
        simp only [varFree, Bool.and_eq_true]
        refine ⟨?_, ?_, ?_, ih r hrl⟩
        · rw [matchVar_eq_none (by decide)]; rfl
        · rw [matchVar_eq_none (by decide)]; rfl
        · rw [matchVar_eq_none (by decide)]; rfl
      | none =>
        rw [substVar_cons_none hm]
        simp only [varFree, Bool.and_eq_true]
        exact ⟨by rw [matchVar_substVar hm]; rfl, ih rest (by omega)⟩

/-! Generic transport of the character-wise normal-form components. -/

/-- Upper-case fixedness of the source text transfers along a membership map. -/
theorem AllUpper_of_mem {s t : Str}
    (hsub : ∀ c ∈ t, c ∈ s ∨ Char.toUpper c = c) (h : AllUpper s) : AllUpper t := by
  intro c hc
  rcases hsub c hc with h1 | h1
  · exact h c h1
  · exact h1

/-- Whitespace canonicity of the source text transfers along a membership map. -/
theorem WsSpace_of_mem {s t : Str}
    (hsub : ∀ c ∈ t, c ∈ s ∨ isWs c = false) (h : WsSpace s) : WsSpace t := by
  intro c hc hw
  rcases hsub c hc with h1 | h1
  · exact h c h1 hw
  · rw [hw] at h1; cases h1

/-- Upper-casing establishes upper-case fixedness. -/
theorem AllUpper_upperList (s : Str) : AllUpper (upperList s) := by
  intro c hc
  simp only [upperList, List.mem_map] at hc
  obtain ⟨y, -, rfl⟩ := hc
  exact toUpper_idem y

/-- The `[(),;]` characters are not whitespace. -/
theorem isPunct_not_ws : ∀ c, isPunct c = true → isWs c = false := by
  intro c h
  simp only [isPunct, Bool.or_eq_true, decide_eq_true_eq] at h
  rcases h with ((h | h) | h) | h <;> subst h <;> decide

/-- The comma is not whitespace. -/
theorem isCommaCh_not_ws : ∀ c, isCommaCh c = true → isWs c = false := by
  intro c h
  have : c = ',' := by simpa [isCommaCh] using h
  subst this
  decide

/-- The equals sign is not whitespace. -/
theorem isEqCh_not_ws : ∀ c, isEqCh c = true → isWs c = false := by
  intro c h
  have : c = '=' := by simpa [isEqCh] using h
  subst this
  decide

/-- Squeezing around a non-whitespace class cannot create adjacent whitespace. -/
theorem noAdjWs_ok {P : Char → Bool} (hP : ∀ c, P c = true → isWs c = false) :
    ∀ z p, P p = true → isWs z = false →
      noAdjWs z p = true ∧ noAdjWs p z = true := by
  intro z p hp hz
  have hwp := hP p hp
  constructor <;> simp [noAdjWs, hwp, hz]

/-- Squeezing around a dash-free class cannot create a double dash. -/
theorem noDD_ok {P : Char → Bool} (hP : ∀ c, P c = true → ¬c = '-') :
    ∀ z p, P p = true → isWs z = false →
      noDD z p = true ∧ noDD p z = true := by
  intro z p hp _
  have hpd := hP p hp
  constructor <;> simp [noDD, hpd]

/-- Squeezing around a non-whitespace class preserves any
no-whitespace-adjacency pair-property. -/
theorem noWsAdjB_ok (Q : Char → Bool) {P : Char → Bool}
    (hP : ∀ c, P c = true → isWs c = false) :
    ∀ z p, P p = true → isWs z = false →
      noWsAdjB Q z p = true ∧ noWsAdjB Q p z = true := by
  intro z p hp hz
  have hwp := hP p hp
  constructor <;> simp [noWsAdjB, hwp, hz]

/-- The `[(),;]` characters are not dashes. -/
theorem isPunct_not_dash : ∀ c, isPunct c = true → ¬c = '-' := by
  intro c h
  simp only [isPunct, Bool.or_eq_true, decide_eq_true_eq] at h
  rcases h with ((h | h) | h) | h <;> subst h <;> decide

/-- The comma is not a dash. -/
theorem isCommaCh_not_dash : ∀ c, isCommaCh c = true → ¬c = '-' := by
  intro c h
  have : c = ',' := by simpa [isCommaCh] using h
  subst this
  decide

/-- The equals sign is not a dash. -/
theorem isEqCh_not_dash : ∀ c, isEqCh c = true → ¬c = '-' := by
  intro c h
  have : c = '=' := by simpa [isEqCh] using h
  subst this
  decide

/-- Membership form of the placeholder substitution. -/
theorem substVar_mem {l : Str} {c : Char} (h : c ∈ substVar l) :
    c ∈ l ∨ c = 'S' ∨ c = 'I' ∨ c = 'T' := substVarF_mem l.length l c h

/-- The output of `normalize_ddl` is always in `NormalDdl` form, except that
it may still end in a semicolon (the `;\s*$` pass removes one layer only). -/
theorem normalize_ddl_normal {x : Str}
    (hsemi : (normalize_ddl x).getLast? ≠ some ';') :
    NormalDdl (normalize_ddl x) := by
  by_cases hx : x = []
  · subst hx
    decide
  · have hrw : normalize_ddl x = stripList (substVar (stripTrailingSemi
        (squeezeAround isEqCh (squeezeAround isCommaCh (squeezeAround isPunct
          (collapseWs (removeComments (stripList (upperList x))))))))) := by
      unfold normalize_ddl
      rw [if_neg hx]
    rw [hrw] at hsemi ⊢
    -- stage 3: after upper, strip, comment removal, whitespace collapse
    have hU3 : AllUpper (collapseWs (removeComments (stripList (upperList x)))) := by
      refine AllUpper_of_mem (fun c hc => ?_) (AllUpper_upperList x)
      rcases clps_mem false _ c hc with ⟨h1, -⟩ | h1
      · exact Or.inl ((stripList_infix_self _).sublist.mem (rmC_mem false _ c h1))
      · exact Or.inr (by rw [h1]; decide)
    have hW3 : WsSpace (collapseWs (removeComments (stripList (upperList x)))) :=
      clps_wsSpace false _
    have hA3 : pairsOK noAdjWs (collapseWs (removeComments (stripList (upperList x)))) = true :=
      clps_noAdjWs false _
    have hD3 : pairsOK noDD (collapseWs (removeComments (stripList (upperList x)))) = true :=
      clps_pres (fun z => ⟨by simp [noDD], by simp [noDD]⟩) false _ (rmC_noDD false _)
    generalize collapseWs (removeComments (stripList (upperList x))) = t3
      at hU3 hW3 hA3 hD3 hsemi ⊢
    -- stage 4: squeeze around [(),;]
    have hU4 : AllUpper (squeezeAround isPunct t3) :=
      AllUpper_of_mem (fun c hc => Or.inl (sqzF_mem isPunct _ _ _ c hc)) hU3
    have hW4 : WsSpace (squeezeAround isPunct t3) :=
      WsSpace_of_mem (fun c hc => Or.inl (sqzF_mem isPunct _ _ _ c hc)) hW3
    have hA4 : pairsOK noAdjWs (squeezeAround isPunct t3) = true :=
      sqzF_pairs isPunct (noAdjWs_ok isPunct_not_ws) t3.length false t3 (Nat.le_refl _) hA3
    have hD4 : pairsOK noDD (squeezeAround isPunct t3) = true :=
      sqzF_pairs isPunct (noDD_ok isPunct_not_dash) t3.length false t3 (Nat.le_refl _) hD3
    have hP4 : pairsOK (noWsAdjB isPunct) (squeezeAround isPunct t3) = true :=
      sqzF_estab isPunct isPunct_not_ws t3.length false t3 (Nat.le_refl _)
    generalize squeezeAround isPunct t3 = t4 at hU4 hW4 hA4 hD4 hP4 hsemi ⊢
    -- stage 5: squeeze around the comma
    have hU5 : AllUpper (squeezeAround isCommaCh t4) :=
      AllUpper_of_mem (fun c hc => Or.inl (sqzF_mem isCommaCh _ _ _ c hc)) hU4
    have hW5 : WsSpace (squeezeAround isCommaCh t4) :=
      WsSpace_of_mem (fun c hc => Or.inl (sqzF_mem isCommaCh _ _ _ c hc)) hW4
    have hA5 : pairsOK noAdjWs (squeezeAround isCommaCh t4) = true :=
      sqzF_pairs isCommaCh (noAdjWs_ok isCommaCh_not_ws) t4.length false t4 (Nat.le_refl _) hA4
    have hD5 : pairsOK noDD (squeezeAround isCommaCh t4) = true :=
      sqzF_pairs isCommaCh (noDD_ok isCommaCh_not_dash) t4.length false t4 (Nat.le_refl _) hD4
    have hP5 : pairsOK (noWsAdjB isPunct) (squeezeAround isCommaCh t4) = true :=
      sqzF_pairs isCommaCh (noWsAdjB_ok isPunct isCommaCh_not_ws) t4.length false t4
        (Nat.le_refl _) hP4
    have hC5 : pairsOK (noWsAdjB isCommaCh) (squeezeAround isCommaCh t4) = true :=
      sqzF_estab isCommaCh isCommaCh_not_ws t4.length false t4 (Nat.le_refl _)
    generalize squeezeAround isCommaCh t4 = t5 at hU5 hW5 hA5 hD5 hP5 hC5 hsemi ⊢
    -- stage 6: squeeze around the equals sign
    have hU6 : AllUpper (squeezeAround isEqCh t5) :=
      AllUpper_of_mem (fun c hc => Or.inl (sqzF_mem isEqCh _ _ _ c hc)) hU5
    have hW6 : WsSpace (squeezeAround isEqCh t5) :=
      WsSpace_of_mem (fun c hc => Or.inl (sqzF_mem isEqCh _ _ _ c hc)) hW5
    have hA6 : pairsOK noAdjWs (squeezeAround isEqCh t5) = true :=
      sqzF_pairs isEqCh (noAdjWs_ok isEqCh_not_ws) t5.length false t5 (Nat.le_refl _) hA5
    have hD6 : pairsOK noDD (squeezeAround isEqCh t5) = true :=
      sqzF_pairs isEqCh (noDD_ok isEqCh_not_dash) t5.length false t5 (Nat.le_refl _) hD5
    have hP6 : pairsOK (noWsAdjB isPunct) (squeezeAround isEqCh t5) = true :=
      sqzF_pairs isEqCh (noWsAdjB_ok isPunct isEqCh_not_ws) t5.length false t5
        (Nat.le_refl _) hP5
    have hC6 : pairsOK (noWsAdjB isCommaCh) (squeezeAround isEqCh t5) = true :=
      sqzF_pairs isEqCh (noWsAdjB_ok isCommaCh isEqCh_not_ws) t5.length false t5
        (Nat.le_refl _) hC5
    have hE6 : pairsOK (noWsAdjB isEqCh) (squeezeAround isEqCh t5) = true :=
      sqzF_estab isEqCh isEqCh_not_ws t5.length false t5 (Nat.le_refl _)
    generalize squeezeAround isEqCh t5 = t6 at hU6 hW6 hA6 hD6 hP6 hC6 hE6 hsemi ⊢
    -- stage 7: strip one trailing semicolon (a prefix of stage 6)
    have hpre := stripTrailingSemi_prefix t6
    have hU7 : AllUpper (stripTrailingSemi t6) :=
      AllUpper_of_mem (fun c hc => Or.inl (hpre.sublist.mem hc)) hU6
    have hW7 : WsSpace (stripTrailingSemi t6) :=
      WsSpace_of_mem (fun c hc => Or.inl (hpre.sublist.mem hc)) hW6
    have hA7 : pairsOK noAdjWs (stripTrailingSemi t6) = true := pairsOK_of_prefix hpre hA6
    have hD7 : pairsOK noDD (stripTrailingSemi t6) = true := pairsOK_of_prefix hpre hD6
    have hP7 : pairsOK (noWsAdjB isPunct) (stripTrailingSemi t6) = true :=
      pairsOK_of_prefix hpre hP6
    have hC7 : pairsOK (noWsAdjB isCommaCh) (stripTrailingSemi t6) = true :=
      pairsOK_of_prefix hpre hC6
    have hE7 : pairsOK (noWsAdjB isEqCh) (stripTrailingSemi t6) = true :=
      pairsOK_of_prefix hpre hE6
    generalize stripTrailingSemi t6 = t7 at hU7 hW7 hA7 hD7 hP7 hC7 hE7 hsemi ⊢
    -- stage 8: placeholder substitution
    have hU8 : AllUpper (substVar t7) := by
      refine AllUpper_of_mem (fun c hc => ?_) hU7
      rcases substVar_mem hc with h1 | h1 | h1 | h1
      · exact Or.inl h1
      · exact Or.inr (by rw [h1]; decide)
      · exact Or.inr (by rw [h1]; decide)
      · exact Or.inr (by rw [h1]; decide)
    have hW8 : WsSpace (substVar t7) := by
      refine WsSpace_of_mem (fun c hc => ?_) hW7
      rcases substVar_mem hc with h1 | h1 | h1 | h1
      · exact Or.inl h1
      · exact Or.inr (by rw [h1]; decide)
      · exact Or.inr (by rw [h1]; decide)
      · exact Or.inr (by rw [h1]; decide)
    have hA8 : pairsOK noAdjWs (substVar t7) = true :=
      substVar_pairs
        (fun z => by simp [noAdjWs, show isWs 'S' = false from by decide])
        (fun z => by simp [noAdjWs, show isWs 'T' = false from by decide])
        (by decide) (by decide) t7 hA7
    have hD8 : pairsOK noDD (substVar t7) = true :=
      substVar_pairs (fun z => by simp [noDD]) (fun z => by simp [noDD])
        (by decide) (by decide) t7 hD7
    have hP8 : pairsOK (noWsAdjB isPunct) (substVar t7) = true :=
      substVar_pairs
        (fun z => by simp [noWsAdjB, show isWs 'S' = false from by decide,
          show isPunct 'S' = false from by decide])
        (fun z => by simp [noWsAdjB, show isWs 'T' = false from by decide,
          show isPunct 'T' = false from by decide])
        (by decide) (by decide) t7 hP7
    have hC8 : pairsOK (noWsAdjB isCommaCh) (substVar t7) = true :=
      substVar_pairs
        (fun z => by simp [noWsAdjB, show isWs 'S' = false from by decide,
          show isCommaCh 'S' = false from by decide])
        (fun z => by simp [noWsAdjB, show isWs 'T' = false from by decide,
          show isCommaCh 'T' = false from by decide])
        (by decide) (by decide) t7 hC7
    have hE8 : pairsOK (noWsAdjB isEqCh) (substVar t7) = true :=
      substVar_pairs
        (fun z => by simp [noWsAdjB, show isWs 'S' = false from by decide,
          show isEqCh 'S' = false from by decide])
        (fun z => by simp [noWsAdjB, show isWs 'T' = false from by decide,
          show isEqCh 'T' = false from by decide])
        (by decide) (by decide) t7 hE7
    have hV8 : varFree (substVar t7) = true := varFree_substVar t7
    generalize substVar t7 = t8 at hU8 hW8 hA8 hD8 hP8 hC8 hE8 hV8 hsemi ⊢
    -- final strip
    have hinf := stripList_infix_self t8
    exact ⟨AllUpper_of_mem (fun c hc => Or.inl (hinf.sublist.mem hc)) hU8,
      stripList_stripFixed t8,
      pairsOK_of_infix hinf hD8,
      ⟨WsSpace_of_mem (fun c hc => Or.inl (hinf.sublist.mem hc)) hW8,
        pairsOK_of_infix hinf hA8⟩,
      pairsOK_of_infix hinf hP8,
      pairsOK_of_infix hinf hC8,
      pairsOK_of_infix hinf hE8,
      hsemi,
      varFree_stripList hV8⟩

/-- The output of `normalize_grant` is always in `NormalGrant` form, except
that it may contain residual quote characters (the quote substitutions remove
one layer only) or doubled whitespace uncovered by quote removal. -/
theorem normalize_grant_normal {y : Str}
    (hq1 : quoteCh ∉ normalize_grant y) (hq2 : dquoteCh ∉ normalize_grant y)
    (hA : pairsOK noAdjWs (normalize_grant y) = true) :
    NormalGrant (normalize_grant y) := by
  have hrw : normalize_grant y = stripList (stripQ dquoteCh (stripQ quoteCh
      (collapseWs (unwrapIdent dquoteCh (unwrapIdent quoteCh
        (stripList (upperList y))))))) := rfl
  rw [hrw] at hq1 hq2 hA ⊢
  have hU1 : AllUpper (unwrapIdent quoteCh (stripList (upperList y))) :=
    AllUpper_of_mem (fun c hc => Or.inl
      ((stripList_infix_self _).sublist.mem (unwrapIdentF_mem quoteCh _ _ c hc)))
      (AllUpper_upperList y)
  have hU2 : AllUpper (unwrapIdent dquoteCh (unwrapIdent quoteCh
      (stripList (upperList y)))) :=
    AllUpper_of_mem (fun c hc => Or.inl (unwrapIdentF_mem dquoteCh _ _ c hc)) hU1
  generalize unwrapIdent dquoteCh (unwrapIdent quoteCh (stripList (upperList y))) = t2
    at hU2 hq1 hq2 hA ⊢
  have hU3 : AllUpper (collapseWs t2) := by
    refine AllUpper_of_mem (fun c hc => ?_) hU2
    rcases clps_mem false t2 c hc with ⟨h1, -⟩ | h1
    · exact Or.inl h1
    · exact Or.inr (by rw [h1]; decide)
  have hW3 : WsSpace (collapseWs t2) := clps_wsSpace false t2
  generalize collapseWs t2 = t3 at hU3 hW3 hq1 hq2 hA ⊢
  have hU4 : AllUpper (stripQ quoteCh t3) :=
    AllUpper_of_mem (fun c hc => Or.inl (stripQF_mem quoteCh _ _ c hc)) hU3
  have hW4 : WsSpace (stripQ quoteCh t3) :=
    WsSpace_of_mem (fun c hc => Or.inl (stripQF_mem quoteCh _ _ c hc)) hW3
  generalize stripQ quoteCh t3 = t4 at hU4 hW4 hq1 hq2 hA ⊢
  have hU5 : AllUpper (stripQ dquoteCh t4) :=
    AllUpper_of_mem (fun c hc => Or.inl (stripQF_mem dquoteCh _ _ c hc)) hU4
  have hW5 : WsSpace (stripQ dquoteCh t4) :=
    WsSpace_of_mem (fun c hc => Or.inl (stripQF_mem dquoteCh _ _ c hc)) hW4
  generalize stripQ dquoteCh t4 = t5 at hU5 hW5 hq1 hq2 hA ⊢
  have hinf := stripList_infix_self t5
  exact ⟨AllUpper_of_mem (fun c hc => Or.inl (hinf.sublist.mem hc)) hU5,
    stripList_stripFixed t5,
    ⟨WsSpace_of_mem (fun c hc => Or.inl (hinf.sublist.mem hc)) hW5, hA⟩,
    hq1, hq2⟩

/--
Claim C4 as amended: neither normalization function is idempotent on all
strings. The only obstructions are: for DDL, a first-pass output that still
ends in a semicolon (the trailing-semicolon substitution removes one layer
per pass); for grants, a first-pass output that still contains a quote
character or adjacent whitespace uncovered by quote stripping (the quote
substitutions remove one layer per pass). Whenever the first pass avoids
these residues, a second pass is the identity: the output is then provably
in full normal form and every pipeline stage fixes it.
-/
theorem claim4_amended (x y : Str)
    (hx : (normalize_ddl x).getLast? ≠ some ';')
    (hy1 : quoteCh ∉ normalize_grant y) (hy2 : dquoteCh ∉ normalize_grant y)
    (hy3 : pairsOK noAdjWs (normalize_grant y) = true) :
    normalize_ddl (normalize_ddl x) = normalize_ddl x ∧
    normalize_grant (normalize_grant y) = normalize_grant y :=
  ⟨normalize_ddl_fixed (normalize_ddl_normal hx),
   normalize_grant_fixed (normalize_grant_normal hy1 hy2 hy3)⟩

/-- Witness for the amended C4 at concrete inputs satisfying its hypotheses. -/
theorem claim4_witness :
    (normalize_ddl (strL "CREATE TABLE T (\n  A INT,\n  B INT\n);")).getLast? ≠ some ';' ∧
    quoteCh ∉ normalize_grant (strL "grant usage on schema foo  to role bar") ∧
    dquoteCh ∉ normalize_grant (strL "grant usage on schema foo  to role bar") ∧
    pairsOK noAdjWs (normalize_grant (strL "grant usage on schema foo  to role bar")) = true ∧
    (normalize_ddl (normalize_ddl (strL "CREATE TABLE T (\n  A INT,\n  B INT\n);")) =
       normalize_ddl (strL "CREATE TABLE T (\n  A INT,\n  B INT\n);") ∧
     normalize_grant (normalize_grant (strL "grant usage on schema foo  to role bar")) =
       normalize_grant (strL "grant usage on schema foo  to role bar")) :=
  ⟨by decide, by decide, by decide, by decide,
   claim4_amended _ _ (by decide) (by decide) (by decide) (by decide)⟩
